import Mathlib

/-!
A shallow embedding of the in-memory series storage core of
`pkg/storage/series.go` (MemSeries, MemSeriesAppender.Append, stats), together
with the external collaborators it depends on, modelled at the interface the
spec gives for them: the chunk cursor contract (a chunk records positional
writes and exposes its sample count) and the series-tree insertion that feeds
the per-key flat/cumulative value columns.
-/

namespace Parca

/-- Value-type tag of a sample or series (ValueType: a type name and a unit). -/
structure ValueType where
  vtype : String
  unit  : String
deriving DecidableEq

/-- Modelled from the spec: `equalValueType` is defined outside the given
source files; per the spec, later samples "must match exactly" the series'
fixed tags, so it compares both fields for equality. -/
def equalValueType (a b : ValueType) : Bool :=
  a.vtype == b.vtype && a.unit == b.unit

/-- ProfileTreeValueNodeKey, the stack-node identity keying the per-key value
maps, modelled as an abstract numeric identity. -/
abbrev NodeKey := Nat

/-- One chunk of one column: the positional writes it has received, most
recent first. The chunk encoders are external; per the spec a chunk exposes
its sample count, which here is the number of recorded writes. -/
abbrev Chunk := List (Nat × Int)

/-- A timestamp chunk together with its per-chunk time window
(timestampChunk in the source). -/
structure TimestampChunk where
  minTime : Int
  maxTime : Int
  writes  : Chunk
deriving DecidableEq

/-- A per-key column map (flatValues / cumulativeValues), as an association
list from stack-node key to that key's chunked column. -/
abbrev KeyCols := List (NodeKey × List Chunk)

/-- The sample handed to Append: its meta fields plus the flat and cumulative
values that its (external) value tree carries, as key-value lists. -/
structure Profile where
  periodType     : ValueType
  sampleType     : ValueType
  timestamp      : Int
  duration       : Int
  period         : Int
  flatVals       : List (NodeKey × Int)
  cumulativeVals : List (NodeKey × Int)
deriving DecidableEq

/-- The mutable state of one MemSeries.  `numSamples` is a Go `uint16`; the
embedding keeps it as a `Nat` and reduces modulo `2 ^ 16` exactly where the
machine arithmetic would wrap (the increment in Append). -/
structure MemSeries where
  periodType       : ValueType
  sampleType       : ValueType
  minTime          : Int
  maxTime          : Int
  timestamps       : List TimestampChunk
  durations        : List Chunk
  periods          : List Chunk
  flatValues       : KeyCols
  cumulativeValues : KeyCols
  numSamples       : Nat
deriving DecidableEq

def samplesPerChunk : Nat := 120

/-- The modulus of Go's uint16 arithmetic, `2 ^ 16`. -/
def uint16Mod : Nat := 65536

def maxInt64 : Int := 2 ^ 63 - 1

def minInt64 : Int := -(2 ^ 63)

/-- NewMemSeries: one empty chunk per fixed column (the timestamp chunk's
window starts at the MaxInt64/MinInt64 sentinels), empty per-key maps, and Go
zero values for the remaining fields — in particular `maxTime = 0` and
`minTime = 0`. -/
def NewMemSeries : MemSeries where
  periodType := ⟨"", ""⟩
  sampleType := ⟨"", ""⟩
  minTime := 0
  maxTime := 0
  timestamps := [⟨maxInt64, minInt64, []⟩]
  durations := [[]]
  periods := [[]]
  flatValues := []
  cumulativeValues := []
  numSamples := 0

/-- The tail (currently writable) chunk of a plain column. -/
def lastChunk (col : List Chunk) : Chunk := (col.getLast?).getD []

/-- The tail chunk of the timestamp column. -/
def lastTsChunk (col : List TimestampChunk) : TimestampChunk :=
  (col.getLast?).getD ⟨maxInt64, minInt64, []⟩

/-- A cursor write into the tail chunk of a column: record `(slot, v)` on the
tail chunk (AppendAt on the bound appender). -/
def writeAt (col : List Chunk) (slot : Nat) (v : Int) : List Chunk :=
  col.dropLast ++ [(slot, v) :: lastChunk col]

/-- A cursor write of a timestamp into the tail timestamp chunk. -/
def tsWriteAt (col : List TimestampChunk) (slot : Nat) (t : Int) : List TimestampChunk :=
  col.dropLast ++ [{ lastTsChunk col with writes := (slot, t) :: (lastTsChunk col).writes }]

/-- Update the tail timestamp chunk's min/max window with `t` (the two `if`
statements after the positional writes in Append). -/
def tsUpdateBounds (col : List TimestampChunk) (t : Int) : List TimestampChunk :=
  let c0 := lastTsChunk col
  let c1 := if c0.minTime > t then { c0 with minTime := t } else c0
  let c2 := if c1.maxTime < t then { c1 with maxTime := t } else c1
  col.dropLast ++ [c2]

/-- Number of samples in the tail timestamp chunk (the quantity the roll
decision inspects). -/
def tsTailLen (s : MemSeries) : Nat := (lastTsChunk s.timestamps).writes.length

/-- The roll decision: the tail timestamp chunk already holds
`samplesPerChunk` (or more) samples. -/
def needsRoll (s : MemSeries) : Bool := samplesPerChunk ≤ tsTailLen s

/-- The roll: append one fresh chunk to every currently-known key of both
per-key maps and to the three fixed columns; the fresh timestamp chunk's
window is initialised to the incoming timestamp. -/
def roll (s : MemSeries) (t : Int) : MemSeries :=
  { s with
    cumulativeValues := s.cumulativeValues.map (fun kc => (kc.1, kc.2 ++ [[]]))
    flatValues := s.flatValues.map (fun kc => (kc.1, kc.2 ++ [[]]))
    timestamps := s.timestamps ++ [⟨t, t, []⟩]
    durations := s.durations ++ [[]]
    periods := s.periods ++ [[]] }

/-- Whether a per-key map already has a column for `k`. -/
def hasKey (m : KeyCols) (k : NodeKey) : Prop := k ∈ m.map Prod.fst

instance (m : KeyCols) (k : NodeKey) : Decidable (hasKey m k) := by
  unfold hasKey
  infer_instance

/-- The column of key `k` in a per-key map (empty if the key is unknown). -/
def colChunks (m : KeyCols) (k : NodeKey) : List Chunk :=
  match m with
  | [] => []
  | kc :: rest => if kc.1 = k then kc.2 else colChunks rest k

/-- Modelled from the spec: a newly created per-key column is backfilled with
empty chunks up to the series' current chunk count `n`, then receives its
first value in its tail chunk. -/
def newCol (n slot : Nat) (v : Int) : List Chunk :=
  List.replicate (n - 1) [] ++ [[(slot, v)]]

/-- Modelled from the spec: inserting one key's value — write into the key's
existing column's tail chunk, or lazily create the column (index-parallel
with the fixed columns, whose current chunk count is `n`). -/
def insertOne (m : KeyCols) (n slot : Nat) (k : NodeKey) (v : Int) : KeyCols :=
  if hasKey m k then
    m.map (fun kc => if kc.1 = k then (kc.1, writeAt kc.2 slot v) else kc)
  else
    m ++ [(k, newCol n slot v)]

/-- Modelled from the spec: insert all of one sample's values for one per-key
map. -/
def insertVals (m : KeyCols) (n slot : Nat) : List (NodeKey × Int) → KeyCols
  | [] => m
  | kv :: rest => insertVals (insertOne m n slot kv.1 kv.2) n slot rest

/-- Modelled from the spec: `MemSeriesTree.Insert` (the external series tree,
whose code is not among the given source files) inserts the sample's value
tree at the given slot; its effect on the series state is to feed the
flat-value and cumulative-value per-key columns. -/
def appendTreeStep (s : MemSeries) (slot : Nat) (p : Profile) : MemSeries :=
  { s with
    flatValues := insertVals s.flatValues s.timestamps.length slot p.flatVals
    cumulativeValues := insertVals s.cumulativeValues s.timestamps.length slot p.cumulativeVals }

/-- The three positional writes of the fixed columns (AppendAt of timestamp,
duration and period at the slot). -/
def writeFixed (s : MemSeries) (slot : Nat) (p : Profile) : MemSeries :=
  { s with
    timestamps := tsWriteAt s.timestamps slot p.timestamp
    durations := writeAt s.durations slot p.duration
    periods := writeAt s.periods slot p.period }

/-- The bookkeeping tail of Append: tail-chunk window update happened already;
set `minTime` if it is still 0 and the timestamp is nonzero, set `maxTime`,
and increment the uint16 counter `numSamples` (wrapping modulo 2^16). -/
def bookkeep (s : MemSeries) (t : Int) : MemSeries :=
  let s1 := if s.minTime = 0 ∧ t ≠ 0 then { s with minTime := t } else s
  { s1 with maxTime := t, numSamples := (s1.numSamples + 1) % uint16Mod }

/-- The first statement of Append: on the series' first sample
(`numSamples == 0`), fix the series' type tags from the sample — this happens
before any validation. -/
def fixTags (s : MemSeries) (p : Profile) : MemSeries :=
  if s.numSamples = 0 then { s with periodType := p.periodType, sampleType := p.sampleType } else s

inductive AppendErr where
  | periodTypeMismatch
  | sampleTypeMismatch
  | outOfOrderSample
deriving DecidableEq

/-- Wrapper applying the tail-window update to the series. -/
def tsBoundsStep (s : MemSeries) (t : Int) : MemSeries :=
  { s with timestamps := tsUpdateBounds s.timestamps t }

/-- The accepted-sample path of Append, after validation passed: roll if the
tail timestamp chunk is full, compute the slot from `numSamples` (which the
roll does not change), delegate the value tree, write the fixed columns at the
slot, update the tail window, and do the bookkeeping. -/
def applyAccepted (s : MemSeries) (p : Profile) : MemSeries :=
  let s1 := if needsRoll s then roll s p.timestamp else s
  let slot := s1.numSamples % samplesPerChunk
  bookkeep (tsBoundsStep (writeFixed (appendTreeStep s1 slot p) slot p) p.timestamp) p.timestamp

/-- MemSeriesAppender.Append.  Returns the error (if any) together with the
series state as left by the call; note that the first-sample tag fixing
happens before validation, so a rejected first sample still leaves the tags
overwritten, exactly as in the source. -/
def Append (s : MemSeries) (p : Profile) : Option AppendErr × MemSeries :=
  let s0 := fixTags s p
  if equalValueType s0.periodType p.periodType = false then (some .periodTypeMismatch, s0)
  else if equalValueType s0.sampleType p.sampleType = false then (some .sampleTypeMismatch, s0)
  else if p.timestamp ≤ s0.maxTime then (some .outOfOrderSample, s0)
  else (none, applyAccepted s0 p)

/-- Run a whole list of Append calls, keeping the state each call leaves. -/
def applyRun (s : MemSeries) (ps : List Profile) : MemSeries :=
  ps.foldl (fun st p => (Append st p).2) s

/-- Whether every Append call of the run is accepted. -/
def allAccepted : MemSeries → List Profile → Bool
  | _, [] => true
  | s, p :: rest => (Append s p).1.isNone && allAccepted (Append s p).2 rest

/-- Strict increase of the run's timestamps, starting strictly above `m`. -/
def incFromB : Int → List Profile → Bool
  | _, [] => true
  | m, p :: rest => decide (m < p.timestamp) && incFromB p.timestamp rest

/-- The last timestamp of the run, with default `d` for the empty run. -/
def lastTsD : List Profile → Int → Int
  | [], d => d
  | p :: rest, _ => lastTsD rest p.timestamp

/-- The timestamp of the first accepted sample of the run whose timestamp is
nonzero, if any. -/
def firstAccNZ : MemSeries → List Profile → Option Int
  | _, [] => none
  | s, p :: rest =>
    if (Append s p).1.isNone && p.timestamp != 0 then some p.timestamp
    else firstAccNZ (Append s p).2 rest

/-- Per-chunk statistics: the chunk's sample count and serialized byte size
(MemSeriesValueStats).  The encoders are external, so the byte size is
modelled abstractly as the number of recorded writes. -/
structure MemSeriesValueStats where
  samples : Nat
  bytes   : Nat
deriving DecidableEq

/-- The snapshot stats() returns (MemSeriesStats). -/
structure MemSeriesStats where
  samples     : Nat
  Cumulatives : List MemSeriesValueStats
  Flat        : List MemSeriesValueStats
deriving DecidableEq

/-- The abstract serialized byte size of a chunk. -/
def chunkBytes (c : Chunk) : Nat := c.length

/-- MemSeries.stats: one MemSeriesValueStats entry per chunk of every per-key
column of flatValues and of cumulativeValues, plus the sample counter. -/
def stats (s : MemSeries) : MemSeriesStats :=
  { samples := s.numSamples
    Cumulatives := s.cumulativeValues.flatMap (fun kc => kc.2.map (fun c => ⟨c.length, chunkBytes c⟩))
    Flat := s.flatValues.flatMap (fun kc => kc.2.map (fun c => ⟨c.length, chunkBytes c⟩)) }

/-- The index-parallel invariant: the duration and period columns and every
currently-known per-key column have exactly as many chunks as the timestamp
column (which always has at least one chunk). -/
def IndexParallel (s : MemSeries) : Prop :=
  0 < s.timestamps.length ∧
  s.durations.length = s.timestamps.length ∧
  s.periods.length = s.timestamps.length ∧
  (∀ kc ∈ s.flatValues, kc.2.length = s.timestamps.length) ∧
  (∀ kc ∈ s.cumulativeValues, kc.2.length = s.timestamps.length)

/-- The single-chunk shape of a young series: every column (fixed and
per-key) still has exactly one chunk. -/
def OneChunk (s : MemSeries) : Prop :=
  s.timestamps.length = 1 ∧ s.durations.length = 1 ∧ s.periods.length = 1 ∧
  (∀ kc ∈ s.flatValues, kc.2.length = 1) ∧
  (∀ kc ∈ s.cumulativeValues, kc.2.length = 1)

/-- A plain sample at time `t`: empty type tags, zero duration and period, no
values. -/
def mkProf (t : Int) : Profile := ⟨⟨"", ""⟩, ⟨"", ""⟩, t, 0, 0, [], []⟩

/-- The run of `n` plain samples with timestamps `t+1, …, t+n`. -/
def mkRun : Int → Nat → List Profile
  | _, 0 => []
  | t, Nat.succ n => mkProf (t + 1) :: mkRun (t + 1) n

/-- A plain sample that also carries flat values. -/
def withFlat (p : Profile) (f : List (NodeKey × Int)) : Profile :=
  { p with flatVals := f }

/-- A 121-sample run whose first sample introduces flat-value key 1 and whose
remaining 120 samples carry no values at all. -/
def c1Run : List Profile := withFlat (mkProf 1) [(1, 7)] :: mkRun 1 120

/-- A first sample with timestamp 0 and nonempty type tags. -/
def c4Prof : Profile := ⟨⟨"cpu", "nanoseconds"⟩, ⟨"samples", "count"⟩, 0, 0, 0, [], []⟩

/-- A series state reachable after 65641 accepted appends (the uint16 counter
wrapped at 65536, after which the tail chunk fills out of phase with the slot
counter): the single tail timestamp chunk is full while `numSamples = 104`. -/
def c8State : MemSeries where
  periodType := ⟨"", ""⟩
  sampleType := ⟨"", ""⟩
  minTime := 1
  maxTime := 103
  timestamps := [⟨1, 103, List.replicate 120 (0, 0)⟩]
  durations := [List.replicate 120 (0, 0)]
  periods := [List.replicate 120 (0, 0)]
  flatValues := []
  cumulativeValues := []
  numSamples := 104

/-- The next in-order sample for `c8State`. -/
def c8Prof : Profile := mkProf 104

/-- A sample with type tags different from the empty tags of `mkRun`'s
samples, timestamped just after the 65536-sample run. -/
def c10Prof : Profile := ⟨⟨"cpu", "count"⟩, ⟨"alloc", "bytes"⟩, 65537, 0, 0, [], []⟩

end Parca

namespace Parca

theorem equalValueType_eq {a b : ValueType} : equalValueType a b = true ↔ a = b := by
  cases a; cases b; simp [equalValueType]

theorem equalValueType_self (a : ValueType) : equalValueType a a = true :=
  equalValueType_eq.mpr rfl

theorem fixTags_eq (s : MemSeries) (p : Profile) :
    fixTags s p =
      { s with
        periodType := if s.numSamples = 0 then p.periodType else s.periodType
        sampleType := if s.numSamples = 0 then p.sampleType else s.sampleType } := by
  unfold fixTags
  by_cases h : s.numSamples = 0 <;> simp [h]

theorem fixTags_maxTime (s : MemSeries) (p : Profile) : (fixTags s p).maxTime = s.maxTime := by
  unfold fixTags; split <;> rfl

theorem fixTags_minTime (s : MemSeries) (p : Profile) : (fixTags s p).minTime = s.minTime := by
  unfold fixTags; split <;> rfl

theorem fixTags_numSamples (s : MemSeries) (p : Profile) :
    (fixTags s p).numSamples = s.numSamples := by
  unfold fixTags; split <;> rfl

theorem fixTags_timestamps (s : MemSeries) (p : Profile) :
    (fixTags s p).timestamps = s.timestamps := by
  unfold fixTags; split <;> rfl

theorem fixTags_durations (s : MemSeries) (p : Profile) :
    (fixTags s p).durations = s.durations := by
  unfold fixTags; split <;> rfl

theorem fixTags_periods (s : MemSeries) (p : Profile) : (fixTags s p).periods = s.periods := by
  unfold fixTags; split <;> rfl

theorem fixTags_flatValues (s : MemSeries) (p : Profile) :
    (fixTags s p).flatValues = s.flatValues := by
  unfold fixTags; split <;> rfl

theorem fixTags_cumulativeValues (s : MemSeries) (p : Profile) :
    (fixTags s p).cumulativeValues = s.cumulativeValues := by
  unfold fixTags; split <;> rfl

theorem Append_error_state {s : MemSeries} {p : Profile} {e : AppendErr}
    (h : (Append s p).1 = some e) : (Append s p).2 = fixTags s p := by
  by_cases h1 : equalValueType (fixTags s p).periodType p.periodType = false
  · simp [Append, h1]
  · by_cases h2 : equalValueType (fixTags s p).sampleType p.sampleType = false
    · simp [Append, h1, h2]
    · by_cases h3 : p.timestamp ≤ (fixTags s p).maxTime
      · simp [Append, h1, h2, h3]
      · simp [Append, h1, h2, h3] at h

theorem Append_ok_elim {s : MemSeries} {p : Profile} (h : (Append s p).1 = none) :
    (Append s p).2 = applyAccepted (fixTags s p) p ∧ s.maxTime < p.timestamp := by
  by_cases h1 : equalValueType (fixTags s p).periodType p.periodType = false
  · simp [Append, h1] at h
  · by_cases h2 : equalValueType (fixTags s p).sampleType p.sampleType = false
    · simp [Append, h1, h2] at h
    · by_cases h3 : p.timestamp ≤ (fixTags s p).maxTime
      · simp [Append, h1, h2, h3] at h
      · rw [fixTags_maxTime] at h3
        exact ⟨by simp [Append, h1, h2, fixTags_maxTime, h3], by omega⟩

theorem Append_ok_of (s : MemSeries) (p : Profile) (ht : s.maxTime < p.timestamp)
    (htag : s.numSamples = 0 ∨ (s.periodType = p.periodType ∧ s.sampleType = p.sampleType)) :
    Append s p = (none, applyAccepted (fixTags s p) p) := by
  have h1 : equalValueType (fixTags s p).periodType p.periodType = true := by
    rw [fixTags_eq]
    rcases htag with h0 | ⟨hp, _⟩
    · simp [h0, equalValueType_self]
    · by_cases h0 : s.numSamples = 0
      · simp [h0, equalValueType_self]
      · simp only [h0, if_false]
        rw [hp]; exact equalValueType_self _
  have h2 : equalValueType (fixTags s p).sampleType p.sampleType = true := by
    rw [fixTags_eq]
    rcases htag with h0 | ⟨_, hq⟩
    · simp [h0, equalValueType_self]
    · by_cases h0 : s.numSamples = 0
      · simp [h0, equalValueType_self]
      · simp only [h0, if_false]
        rw [hq]; exact equalValueType_self _
  have h3 : ¬ p.timestamp ≤ (fixTags s p).maxTime := by rw [fixTags_maxTime]; omega
  simp [Append, h1, h2, h3]

theorem Append_ok_ts {s : MemSeries} {p : Profile} (h : (Append s p).1 = none) :
    s.maxTime < p.timestamp := (Append_ok_elim h).2

end Parca

namespace Parca

theorem lastChunk_concat (col : List Chunk) (c : Chunk) : lastChunk (col ++ [c]) = c := by
  simp [lastChunk, List.getLast?_concat]

theorem lastChunk_writeAt (col : List Chunk) (slot : Nat) (v : Int) :
    lastChunk (writeAt col slot v) = (slot, v) :: lastChunk col := by
  simp [writeAt, lastChunk_concat]

theorem lastTsChunk_concat (col : List TimestampChunk) (c : TimestampChunk) :
    lastTsChunk (col ++ [c]) = c := by
  simp [lastTsChunk, List.getLast?_concat]

theorem lastTsChunk_tsWriteAt (col : List TimestampChunk) (slot : Nat) (t : Int) :
    lastTsChunk (tsWriteAt col slot t) =
      { lastTsChunk col with writes := (slot, t) :: (lastTsChunk col).writes } := by
  simp [tsWriteAt, lastTsChunk_concat]

theorem lastTsChunk_tsUpdateBounds_writes (col : List TimestampChunk) (t : Int) :
    (lastTsChunk (tsUpdateBounds col t)).writes = (lastTsChunk col).writes := by
  simp only [tsUpdateBounds, lastTsChunk_concat]
  split <;> split <;> rfl

theorem length_writeAt (col : List Chunk) (slot : Nat) (v : Int) (h : col ≠ []) :
    (writeAt col slot v).length = col.length := by
  have := List.length_pos.mpr h
  simp [writeAt, List.length_dropLast]
  omega

theorem length_tsWriteAt (col : List TimestampChunk) (slot : Nat) (t : Int) (h : col ≠ []) :
    (tsWriteAt col slot t).length = col.length := by
  have := List.length_pos.mpr h
  simp [tsWriteAt, List.length_dropLast]
  omega

theorem length_tsUpdateBounds (col : List TimestampChunk) (t : Int) (h : col ≠ []) :
    (tsUpdateBounds col t).length = col.length := by
  have := List.length_pos.mpr h
  simp [tsUpdateBounds, List.length_dropLast]
  omega

theorem roll_numSamples (s : MemSeries) (t : Int) : (roll s t).numSamples = s.numSamples := rfl

theorem roll_maxTime (s : MemSeries) (t : Int) : (roll s t).maxTime = s.maxTime := rfl

theorem roll_minTime (s : MemSeries) (t : Int) : (roll s t).minTime = s.minTime := rfl

theorem roll_periodType (s : MemSeries) (t : Int) : (roll s t).periodType = s.periodType := rfl

theorem roll_sampleType (s : MemSeries) (t : Int) : (roll s t).sampleType = s.sampleType := rfl

theorem roll_timestamps_length (s : MemSeries) (t : Int) :
    (roll s t).timestamps.length = s.timestamps.length + 1 := by
  simp [roll]

theorem lastTsChunk_roll (s : MemSeries) (t : Int) :
    lastTsChunk (roll s t).timestamps = ⟨t, t, []⟩ := by
  simp [roll, lastTsChunk_concat]

theorem bookkeep_numSamples (s : MemSeries) (t : Int) :
    (bookkeep s t).numSamples = (s.numSamples + 1) % uint16Mod := by
  unfold bookkeep; split <;> rfl

theorem bookkeep_maxTime (s : MemSeries) (t : Int) : (bookkeep s t).maxTime = t := by
  unfold bookkeep; split <;> rfl

theorem bookkeep_minTime (s : MemSeries) (t : Int) :
    (bookkeep s t).minTime = if s.minTime = 0 ∧ t ≠ 0 then t else s.minTime := by
  unfold bookkeep
  by_cases h : s.minTime = 0 ∧ t ≠ 0 <;> simp [h]

theorem bookkeep_periodType (s : MemSeries) (t : Int) :
    (bookkeep s t).periodType = s.periodType := by
  unfold bookkeep; split <;> rfl

theorem bookkeep_sampleType (s : MemSeries) (t : Int) :
    (bookkeep s t).sampleType = s.sampleType := by
  unfold bookkeep; split <;> rfl

theorem bookkeep_timestamps (s : MemSeries) (t : Int) :
    (bookkeep s t).timestamps = s.timestamps := by
  unfold bookkeep; split <;> rfl

theorem bookkeep_durations (s : MemSeries) (t : Int) :
    (bookkeep s t).durations = s.durations := by
  unfold bookkeep; split <;> rfl

theorem bookkeep_periods (s : MemSeries) (t : Int) : (bookkeep s t).periods = s.periods := by
  unfold bookkeep; split <;> rfl

theorem bookkeep_flatValues (s : MemSeries) (t : Int) :
    (bookkeep s t).flatValues = s.flatValues := by
  unfold bookkeep; split <;> rfl

theorem bookkeep_cumulativeValues (s : MemSeries) (t : Int) :
    (bookkeep s t).cumulativeValues = s.cumulativeValues := by
  unfold bookkeep; split <;> rfl

end Parca

namespace Parca

theorem writeFixed_spectator (s : MemSeries) (slot : Nat) (p : Profile) :
    (writeFixed s slot p).periodType = s.periodType ∧
    (writeFixed s slot p).sampleType = s.sampleType ∧
    (writeFixed s slot p).minTime = s.minTime ∧
    (writeFixed s slot p).maxTime = s.maxTime ∧
    (writeFixed s slot p).flatValues = s.flatValues ∧
    (writeFixed s slot p).cumulativeValues = s.cumulativeValues ∧
    (writeFixed s slot p).numSamples = s.numSamples :=
  ⟨rfl, rfl, rfl, rfl, rfl, rfl, rfl⟩

theorem writeFixed_timestamps (s : MemSeries) (slot : Nat) (p : Profile) :
    (writeFixed s slot p).timestamps = tsWriteAt s.timestamps slot p.timestamp := rfl

theorem writeFixed_durations (s : MemSeries) (slot : Nat) (p : Profile) :
    (writeFixed s slot p).durations = writeAt s.durations slot p.duration := rfl

theorem writeFixed_periods (s : MemSeries) (slot : Nat) (p : Profile) :
    (writeFixed s slot p).periods = writeAt s.periods slot p.period := rfl

theorem tsBoundsStep_spectator (s : MemSeries) (t : Int) :
    (tsBoundsStep s t).periodType = s.periodType ∧
    (tsBoundsStep s t).sampleType = s.sampleType ∧
    (tsBoundsStep s t).minTime = s.minTime ∧
    (tsBoundsStep s t).maxTime = s.maxTime ∧
    (tsBoundsStep s t).durations = s.durations ∧
    (tsBoundsStep s t).periods = s.periods ∧
    (tsBoundsStep s t).flatValues = s.flatValues ∧
    (tsBoundsStep s t).cumulativeValues = s.cumulativeValues ∧
    (tsBoundsStep s t).numSamples = s.numSamples :=
  ⟨rfl, rfl, rfl, rfl, rfl, rfl, rfl, rfl, rfl⟩

theorem tsBoundsStep_timestamps (s : MemSeries) (t : Int) :
    (tsBoundsStep s t).timestamps = tsUpdateBounds s.timestamps t := rfl

theorem appendTreeStep_spectator (s : MemSeries) (slot : Nat) (p : Profile) :
    (appendTreeStep s slot p).periodType = s.periodType ∧
    (appendTreeStep s slot p).sampleType = s.sampleType ∧
    (appendTreeStep s slot p).minTime = s.minTime ∧
    (appendTreeStep s slot p).maxTime = s.maxTime ∧
    (appendTreeStep s slot p).timestamps = s.timestamps ∧
    (appendTreeStep s slot p).durations = s.durations ∧
    (appendTreeStep s slot p).periods = s.periods ∧
    (appendTreeStep s slot p).numSamples = s.numSamples :=
  ⟨rfl, rfl, rfl, rfl, rfl, rfl, rfl, rfl⟩

theorem appendTreeStep_flatValues (s : MemSeries) (slot : Nat) (p : Profile) :
    (appendTreeStep s slot p).flatValues =
      insertVals s.flatValues s.timestamps.length slot p.flatVals := rfl

theorem appendTreeStep_cumulativeValues (s : MemSeries) (slot : Nat) (p : Profile) :
    (appendTreeStep s slot p).cumulativeValues =
      insertVals s.cumulativeValues s.timestamps.length slot p.cumulativeVals := rfl

theorem applyAccepted_numSamples (s : MemSeries) (p : Profile) :
    (applyAccepted s p).numSamples = (s.numSamples + 1) % uint16Mod := by
  unfold applyAccepted
  cases h : needsRoll s <;>
    simp [h, bookkeep_numSamples, tsBoundsStep, writeFixed, appendTreeStep, roll]

theorem applyAccepted_maxTime (s : MemSeries) (p : Profile) :
    (applyAccepted s p).maxTime = p.timestamp := by
  unfold applyAccepted
  cases h : needsRoll s <;> simp [h, bookkeep_maxTime]

theorem applyAccepted_periodType (s : MemSeries) (p : Profile) :
    (applyAccepted s p).periodType = s.periodType := by
  unfold applyAccepted
  cases h : needsRoll s <;>
    simp [h, bookkeep_periodType, tsBoundsStep, writeFixed, appendTreeStep, roll]

theorem applyAccepted_sampleType (s : MemSeries) (p : Profile) :
    (applyAccepted s p).sampleType = s.sampleType := by
  unfold applyAccepted
  cases h : needsRoll s <;>
    simp [h, bookkeep_sampleType, tsBoundsStep, writeFixed, appendTreeStep, roll]

theorem applyAccepted_minTime (s : MemSeries) (p : Profile) :
    (applyAccepted s p).minTime =
      if s.minTime = 0 ∧ p.timestamp ≠ 0 then p.timestamp else s.minTime := by
  unfold applyAccepted
  cases h : needsRoll s <;>
    simp [h, bookkeep_minTime, tsBoundsStep, writeFixed, appendTreeStep, roll]

end Parca

namespace Parca

theorem needsRoll_fixTags (s : MemSeries) (p : Profile) :
    needsRoll (fixTags s p) = needsRoll s := by
  simp [needsRoll, tsTailLen, fixTags_timestamps]

theorem applyAccepted_ts_head (s : MemSeries) (p : Profile) :
    (lastTsChunk (applyAccepted s p).timestamps).writes.head? =
      some (s.numSamples % samplesPerChunk, p.timestamp) := by
  unfold applyAccepted
  cases h : needsRoll s <;>
    simp [h, bookkeep_timestamps, tsBoundsStep, writeFixed, appendTreeStep, roll,
      lastTsChunk_tsUpdateBounds_writes, lastTsChunk_tsWriteAt]

theorem applyAccepted_dur_head (s : MemSeries) (p : Profile) :
    (lastChunk (applyAccepted s p).durations).head? =
      some (s.numSamples % samplesPerChunk, p.duration) := by
  unfold applyAccepted
  cases h : needsRoll s <;>
    simp [h, bookkeep_durations, tsBoundsStep, writeFixed, appendTreeStep, roll, lastChunk_writeAt]

theorem applyAccepted_per_head (s : MemSeries) (p : Profile) :
    (lastChunk (applyAccepted s p).periods).head? =
      some (s.numSamples % samplesPerChunk, p.period) := by
  unfold applyAccepted
  cases h : needsRoll s <;>
    simp [h, bookkeep_periods, tsBoundsStep, writeFixed, appendTreeStep, roll, lastChunk_writeAt]

theorem append_run_step (s : MemSeries) (p : Profile) (ht : s.maxTime < p.timestamp)
    (htag : s.numSamples = 0 ∨ (s.periodType = p.periodType ∧ s.sampleType = p.sampleType)) :
    (Append s p).1 = none ∧
    (Append s p).2.numSamples = (s.numSamples + 1) % uint16Mod ∧
    (Append s p).2.maxTime = p.timestamp ∧
    (Append s p).2.periodType = p.periodType ∧
    (Append s p).2.sampleType = p.sampleType := by
  rw [Append_ok_of s p ht htag]
  refine ⟨rfl, ?_, ?_, ?_, ?_⟩
  · show (applyAccepted (fixTags s p) p).numSamples = _
    rw [applyAccepted_numSamples, fixTags_numSamples]
  · exact applyAccepted_maxTime _ _
  · show (applyAccepted (fixTags s p) p).periodType = _
    rw [applyAccepted_periodType, fixTags_eq]
    rcases htag with h0 | ⟨hp, _⟩
    · simp [h0]
    · by_cases h0 : s.numSamples = 0 <;> simp [h0, hp]
  · show (applyAccepted (fixTags s p) p).sampleType = _
    rw [applyAccepted_sampleType, fixTags_eq]
    rcases htag with h0 | ⟨_, hq⟩
    · simp [h0]
    · by_cases h0 : s.numSamples = 0 <;> simp [h0, hq]

theorem Append_minTime (s : MemSeries) (p : Profile) :
    (Append s p).2.minTime =
      if s.minTime = 0 ∧ (Append s p).1 = none ∧ p.timestamp ≠ 0 then p.timestamp
      else s.minTime := by
  cases h : (Append s p).1 with
  | some e =>
    rw [Append_error_state h, fixTags_minTime]
    simp [h]
  | none =>
    rw [(Append_ok_elim h).1]
    rw [applyAccepted_minTime, fixTags_minTime]
    simp [h]

theorem Append_error_maxTime {s : MemSeries} {p : Profile} {e : AppendErr}
    (h : (Append s p).1 = some e) : (Append s p).2.maxTime = s.maxTime := by
  rw [Append_error_state h, fixTags_maxTime]

theorem Append_error_numSamples {s : MemSeries} {p : Profile} {e : AppendErr}
    (h : (Append s p).1 = some e) : (Append s p).2.numSamples = s.numSamples := by
  rw [Append_error_state h, fixTags_numSamples]

end Parca

namespace Parca

theorem applyRun_nil (s : MemSeries) : applyRun s [] = s := rfl

theorem applyRun_cons (s : MemSeries) (p : Profile) (ps : List Profile) :
    applyRun s (p :: ps) = applyRun (Append s p).2 ps := rfl

theorem applyRun_append (s : MemSeries) (ps qs : List Profile) :
    applyRun s (ps ++ qs) = applyRun (applyRun s ps) qs := by
  simp [applyRun, List.foldl_append]

theorem uint16Mod_pos : 0 < uint16Mod := by decide

theorem run_fields (PT ST : ValueType) (ps : List Profile) : ∀ (s : MemSeries),
    s.numSamples < uint16Mod →
    incFromB s.maxTime ps = true →
    (∀ p ∈ ps, p.periodType = PT ∧ p.sampleType = ST) →
    (s.numSamples = 0 ∨ (s.periodType = PT ∧ s.sampleType = ST)) →
    allAccepted s ps = true ∧
    (applyRun s ps).numSamples = (s.numSamples + ps.length) % uint16Mod ∧
    (applyRun s ps).maxTime = lastTsD ps s.maxTime ∧
    (applyRun s ps).numSamples < uint16Mod ∧
    ((applyRun s ps).numSamples = 0 ∨
      ((applyRun s ps).periodType = PT ∧ (applyRun s ps).sampleType = ST)) := by
  induction ps with
  | nil =>
    intro s hlt _ _ hI
    refine ⟨rfl, ?_, rfl, hlt, hI⟩
    simpa [applyRun_nil] using (Nat.mod_eq_of_lt hlt).symm
  | cons p rest ih =>
    intro s hlt hinc htags hI
    rw [incFromB, Bool.and_eq_true, decide_eq_true_eq] at hinc
    obtain ⟨ht, hincrest⟩ := hinc
    have hptags := htags p (List.mem_cons_self p rest)
    have htag : s.numSamples = 0 ∨
        (s.periodType = p.periodType ∧ s.sampleType = p.sampleType) := by
      rcases hI with h0 | ⟨h1, h2⟩
      · exact Or.inl h0
      · exact Or.inr ⟨by rw [h1, hptags.1], by rw [h2, hptags.2]⟩
    obtain ⟨hok, hns, hmax, hpt, hst⟩ := append_run_step s p ht htag
    have hlt' : (Append s p).2.numSamples < uint16Mod := by
      rw [hns]; exact Nat.mod_lt _ uint16Mod_pos
    have hincrest' : incFromB (Append s p).2.maxTime rest = true := by rw [hmax]; exact hincrest
    have htags' : ∀ q ∈ rest, q.periodType = PT ∧ q.sampleType = ST := fun q hq =>
      htags q (List.mem_cons_of_mem p hq)
    have hI' : (Append s p).2.numSamples = 0 ∨
        ((Append s p).2.periodType = PT ∧ (Append s p).2.sampleType = ST) :=
      Or.inr ⟨by rw [hpt, hptags.1], by rw [hst, hptags.2]⟩
    obtain ⟨ihAcc, ihNs, ihMax, ihLt, ihTags⟩ := ih (Append s p).2 hlt' hincrest' htags' hI'
    refine ⟨?_, ?_, ?_, ?_, ?_⟩
    · rw [allAccepted, hok]
      simpa using ihAcc
    · rw [applyRun_cons, ihNs, hns, Nat.mod_add_mod]
      congr 1
      simp
      omega
    · rw [applyRun_cons, ihMax, hmax]
      rfl
    · rw [applyRun_cons]; exact ihLt
    · rw [applyRun_cons]; exact ihTags

end Parca

namespace Parca

theorem mkRun_length (t : Int) (n : Nat) : (mkRun t n).length = n := by
  induction n generalizing t with
  | zero => rfl
  | succ n ih => simp [mkRun, ih]

theorem mkRun_inc (t : Int) (n : Nat) : incFromB t (mkRun t n) = true := by
  induction n generalizing t with
  | zero => rfl
  | succ n ih =>
    rw [mkRun, incFromB, Bool.and_eq_true, decide_eq_true_eq]
    exact ⟨by simp [mkProf], by simpa [mkProf] using ih (t + 1)⟩

theorem mkRun_tags (t : Int) (n : Nat) :
    ∀ p ∈ mkRun t n, p.periodType = ⟨"", ""⟩ ∧ p.sampleType = ⟨"", ""⟩ := by
  induction n generalizing t with
  | zero => intro p hp; cases hp
  | succ n ih =>
    intro p hp
    rcases List.mem_cons.mp hp with h | h
    · subst h; exact ⟨rfl, rfl⟩
    · exact ih (t + 1) p h

theorem mkRun_lastTsD (n : Nat) : ∀ (t d : Int),
    lastTsD (mkRun t n) d = if n = 0 then d else t + n := by
  induction n with
  | zero => intro t d; rfl
  | succ n ih =>
    intro t d
    rw [mkRun, lastTsD, ih (t + 1)]
    by_cases h : n = 0
    all_goals simp [mkProf, h]
    all_goals omega

end Parca

namespace Parca

theorem NewMemSeries_numSamples : NewMemSeries.numSamples = 0 := rfl

theorem NewMemSeries_maxTime : NewMemSeries.maxTime = 0 := rfl

/-- C3: for every series state and every sample whose type tags match the
series' tags and whose timestamp is at most the series' current maxTime,
Append returns OutOfOrderSample and hands back the state completely
unchanged — in particular numSamples, maxTime and every column's chunk count
are unchanged. -/
theorem append_out_of_order_no_op (s : MemSeries) (p : Profile)
    (hpt : equalValueType s.periodType p.periodType = true)
    (hst : equalValueType s.sampleType p.sampleType = true)
    (ht : p.timestamp ≤ s.maxTime) :
    Append s p = (some AppendErr.outOfOrderSample, s) := by
  have hp : s.periodType = p.periodType := equalValueType_eq.mp hpt
  have hq : s.sampleType = p.sampleType := equalValueType_eq.mp hst
  have hfix : fixTags s p = s := by
    rw [fixTags_eq, ← hp, ← hq]
    simp only [ite_self]
  simp [Append, hfix, hpt, hst, ht]

/-- Witness for C3: a concrete out-of-order rejection leaving the state
unchanged (the fresh series has maxTime 0, and the sample's timestamp is 0). -/
theorem append_out_of_order_no_op_witness :
    equalValueType NewMemSeries.periodType (mkProf 0).periodType = true ∧
    equalValueType NewMemSeries.sampleType (mkProf 0).sampleType = true ∧
    (mkProf 0).timestamp ≤ NewMemSeries.maxTime ∧
    Append NewMemSeries (mkProf 0) = (some AppendErr.outOfOrderSample, NewMemSeries) :=
  ⟨by decide, by decide, by decide,
    append_out_of_order_no_op NewMemSeries (mkProf 0) (by decide) (by decide) (by decide)⟩

/-- C4 fails as stated: a rejected first sample still overwrites the series'
type tags, because Append fixes the tags from the sample before validating
the timestamp.  Here a fresh series rejects its first sample (timestamp 0)
with OutOfOrderSample, yet both tags have changed. -/
theorem append_rejected_first_sample_mutates_tags :
    (Append NewMemSeries c4Prof).1 = some AppendErr.outOfOrderSample ∧
    (Append NewMemSeries c4Prof).2.periodType ≠ NewMemSeries.periodType ∧
    (Append NewMemSeries c4Prof).2.sampleType ≠ NewMemSeries.sampleType := by decide

/-- C4 (amended): whenever Append returns a validation error, the resulting
state equals the original except that, when the failing sample is the series'
first (numSamples = 0), the periodType and sampleType tags have been
overwritten with the sample's tags; every other field — numSamples, minTime,
maxTime and all columns — is unchanged. -/
theorem append_error_leaves_state {s : MemSeries} {p : Profile} {e : AppendErr}
    (h : (Append s p).1 = some e) :
    (Append s p).2 =
      { s with
        periodType := if s.numSamples = 0 then p.periodType else s.periodType
        sampleType := if s.numSamples = 0 then p.sampleType else s.sampleType } := by
  rw [Append_error_state h, fixTags_eq]

/-- Witness for the amended C4, at a concrete rejected first sample. -/
theorem append_error_leaves_state_witness :
    (Append NewMemSeries c4Prof).1 = some AppendErr.outOfOrderSample ∧
    (Append NewMemSeries c4Prof).2 =
      { NewMemSeries with
        periodType :=
          if NewMemSeries.numSamples = 0 then c4Prof.periodType else NewMemSeries.periodType
        sampleType :=
          if NewMemSeries.numSamples = 0 then c4Prof.sampleType else NewMemSeries.sampleType } :=
  ⟨by decide, @append_error_leaves_state NewMemSeries c4Prof AppendErr.outOfOrderSample (by decide)⟩

/-- C5 fails as stated: the first sample of a fresh series is not exempt from
the ordering validation, because maxTime's initial sentinel is the Go zero
value 0 — a first sample with timestamp 0 is rejected with OutOfOrderSample. -/
theorem first_sample_zero_ts_rejected :
    NewMemSeries.numSamples = 0 ∧
    (Append NewMemSeries (mkProf 0)).1 = some AppendErr.outOfOrderSample := by decide

/-- C5 (amended): a fresh series (numSamples = 0, maxTime at its initial
sentinel 0) accepts its first sample exactly when the sample's timestamp is
positive; for timestamps at most 0 it is rejected. -/
theorem first_sample_ok_iff (p : Profile) :
    (Append NewMemSeries p).1 = none ↔ 0 < p.timestamp := by
  constructor
  · intro h
    exact Append_ok_ts h
  · intro h
    rw [Append_ok_of NewMemSeries p h (Or.inl rfl)]

/-- C6 fails as stated at N = 65536: the uint16 counter wraps, so after 65536
accepted appends numSamples is 0, not 65536. -/
theorem run_counter_wrap_counterexample :
    allAccepted NewMemSeries (mkRun 0 65536) = true ∧
    (mkRun 0 65536).length = 65536 ∧
    (applyRun NewMemSeries (mkRun 0 65536)).numSamples ≠ (mkRun 0 65536).length := by
  obtain ⟨hAcc, hNs, _, _, _⟩ := run_fields ⟨"", ""⟩ ⟨"", ""⟩ (mkRun 0 65536) NewMemSeries
    (by decide) (mkRun_inc 0 65536) (mkRun_tags 0 65536) (Or.inl rfl)
  refine ⟨hAcc, mkRun_length 0 65536, ?_⟩
  rw [hNs, NewMemSeries_numSamples, mkRun_length]
  decide

/-- C6 (amended): for every sequence of samples with strictly increasing
timestamps (starting above the fresh series' maxTime 0) and consistent type
tags, all N appends are accepted, numSamples equals N modulo 2^16 (numSamples
is a uint16 counter), and maxTime equals the last accepted timestamp. -/
theorem run_numSamples_maxTime (PT ST : ValueType) (ps : List Profile)
    (hinc : incFromB 0 ps = true)
    (htags : ∀ p ∈ ps, p.periodType = PT ∧ p.sampleType = ST) :
    allAccepted NewMemSeries ps = true ∧
    (applyRun NewMemSeries ps).numSamples = ps.length % uint16Mod ∧
    (applyRun NewMemSeries ps).maxTime = lastTsD ps 0 := by
  obtain ⟨hAcc, hNs, hMax, _, _⟩ := run_fields PT ST ps NewMemSeries (by decide) hinc htags
    (Or.inl rfl)
  refine ⟨hAcc, ?_, hMax⟩
  rw [hNs, NewMemSeries_numSamples]
  simp

/-- Witness for the amended C6, on a concrete 2-sample run. -/
theorem run_numSamples_maxTime_witness :
    allAccepted NewMemSeries [mkProf 5, mkProf 9] = true ∧
    (applyRun NewMemSeries [mkProf 5, mkProf 9]).numSamples =
      [mkProf 5, mkProf 9].length % uint16Mod ∧
    (applyRun NewMemSeries [mkProf 5, mkProf 9]).maxTime = lastTsD [mkProf 5, mkProf 9] 0 :=
  run_numSamples_maxTime ⟨"", ""⟩ ⟨"", ""⟩ [mkProf 5, mkProf 9] (by decide) (by decide)

end Parca

namespace Parca

/-- C10: numSamples is a uint16 counter: a run of 65536 accepted appends
wraps it back to 0, and the next Append is then treated as a series-first
sample — it is accepted, its tags overwrite the series' fixed type tags, and
slot addressing restarts from slot 0 (the tail timestamp chunk's newest write
carries slot 0). -/
theorem uint16_wrap_restarts_series (PT ST : ValueType) (ps : List Profile) (q : Profile)
    (hlen : ps.length = uint16Mod)
    (hinc : incFromB 0 ps = true)
    (htags : ∀ p ∈ ps, p.periodType = PT ∧ p.sampleType = ST)
    (hq : lastTsD ps 0 < q.timestamp) :
    allAccepted NewMemSeries ps = true ∧
    (applyRun NewMemSeries ps).numSamples = 0 ∧
    (Append (applyRun NewMemSeries ps) q).1 = none ∧
    (Append (applyRun NewMemSeries ps) q).2.periodType = q.periodType ∧
    (Append (applyRun NewMemSeries ps) q).2.sampleType = q.sampleType ∧
    (applyRun NewMemSeries ps).numSamples % samplesPerChunk = 0 ∧
    (lastTsChunk (Append (applyRun NewMemSeries ps) q).2.timestamps).writes.head? =
      some (0, q.timestamp) := by
  obtain ⟨hAcc, hNs, hMax, _, _⟩ := run_fields PT ST ps NewMemSeries (by decide) hinc htags
    (Or.inl rfl)
  have hNs0 : (applyRun NewMemSeries ps).numSamples = 0 := by
    rw [hNs, NewMemSeries_numSamples, hlen]
    decide
  have hMax' : (applyRun NewMemSeries ps).maxTime < q.timestamp := by
    rw [hMax, NewMemSeries_maxTime]
    exact hq
  obtain ⟨hok, _, _, hpt, hst⟩ := append_run_step _ q hMax' (Or.inl hNs0)
  have hhead := applyAccepted_ts_head (fixTags (applyRun NewMemSeries ps) q) q
  rw [fixTags_numSamples, hNs0] at hhead
  refine ⟨hAcc, hNs0, hok, hpt, hst, by simp [hNs0], ?_⟩
  rw [(Append_ok_elim hok).1]
  simpa using hhead

/-- Witness for C10: the 65536-sample run with empty tags, then a sample with
different tags at timestamp 65537. -/
theorem uint16_wrap_restarts_series_witness :
    allAccepted NewMemSeries (mkRun 0 65536) = true ∧
    (applyRun NewMemSeries (mkRun 0 65536)).numSamples = 0 ∧
    (Append (applyRun NewMemSeries (mkRun 0 65536)) c10Prof).1 = none ∧
    (Append (applyRun NewMemSeries (mkRun 0 65536)) c10Prof).2.periodType = c10Prof.periodType ∧
    (Append (applyRun NewMemSeries (mkRun 0 65536)) c10Prof).2.sampleType = c10Prof.sampleType ∧
    (applyRun NewMemSeries (mkRun 0 65536)).numSamples % samplesPerChunk = 0 ∧
    (lastTsChunk (Append (applyRun NewMemSeries (mkRun 0 65536)) c10Prof).2.timestamps).writes.head?
      = some (0, c10Prof.timestamp) :=
  uint16_wrap_restarts_series ⟨"", ""⟩ ⟨"", ""⟩ (mkRun 0 65536) c10Prof
    (mkRun_length 0 65536) (mkRun_inc 0 65536) (mkRun_tags 0 65536)
    (by rw [mkRun_lastTsD 65536 0 0]; decide)

/-- C9: the snapshot stats() returns reports the series' numSamples in its
samples field and contains exactly one per-chunk entry for every chunk of
every per-key column of flatValues and of cumulativeValues; being a pure
function of the state, it mutates nothing. -/
theorem stats_shape (s : MemSeries) :
    (stats s).samples = s.numSamples ∧
    (stats s).Flat.length = (s.flatValues.map (fun kc => kc.2.length)).sum ∧
    (stats s).Cumulatives.length = (s.cumulativeValues.map (fun kc => kc.2.length)).sum := by
  refine ⟨rfl, ?_, ?_⟩ <;> simp [stats, Function.comp_def]

end Parca

namespace Parca

theorem minTime_stable (ps : List Profile) : ∀ (s : MemSeries), s.minTime ≠ 0 →
    (applyRun s ps).minTime = s.minTime := by
  induction ps with
  | nil => intro s _; rfl
  | cons p rest ih =>
    intro s hs
    rw [applyRun_cons]
    have hstep : (Append s p).2.minTime = s.minTime := by
      rw [Append_minTime]
      simp [hs]
    rw [ih (Append s p).2 (by rw [hstep]; exact hs), hstep]

theorem firstAccNZ_some_ne_zero (ps : List Profile) : ∀ (s : MemSeries) (t : Int),
    firstAccNZ s ps = some t → t ≠ 0 := by
  induction ps with
  | nil => intro s t h; cases h
  | cons p rest ih =>
    intro s t h
    rw [firstAccNZ] at h
    by_cases hc : (Append s p).1.isNone && p.timestamp != 0
    · rw [if_pos hc] at h
      rw [Bool.and_eq_true, bne_iff_ne] at hc
      cases h
      exact hc.2
    · rw [if_neg hc] at h
      exact ih (Append s p).2 t h

theorem minTime_run_eq (ps : List Profile) : ∀ (s : MemSeries), s.minTime = 0 →
    0 ≤ s.maxTime → (applyRun s ps).minTime = (firstAccNZ s ps).getD 0 := by
  induction ps with
  | nil => intro s h0 _; rw [applyRun_nil, firstAccNZ]; exact h0
  | cons p rest ih =>
    intro s h0 hmax
    rw [applyRun_cons, firstAccNZ]
    by_cases hc : (Append s p).1.isNone && p.timestamp != 0
    · rw [if_pos hc]
      rw [Bool.and_eq_true, Option.isNone_iff_eq_none, bne_iff_ne] at hc
      have hnew : (Append s p).2.minTime = p.timestamp := by
        rw [Append_minTime, if_pos ⟨h0, hc.1, hc.2⟩]
      rw [minTime_stable rest (Append s p).2 (by rw [hnew]; exact hc.2), hnew]
      rfl
    · rw [if_neg hc]
      by_cases hacc : (Append s p).1 = none
      · exfalso
        have hlt := Append_ok_ts hacc
        have hz : p.timestamp = 0 := by
          by_contra hz
          exact hc (by rw [Bool.and_eq_true, Option.isNone_iff_eq_none, bne_iff_ne]
                       exact ⟨hacc, hz⟩)
        omega
      · obtain ⟨e, he⟩ := Option.ne_none_iff_exists'.mp hacc
        have hmin : (Append s p).2.minTime = s.minTime := by
          rw [Append_minTime]
          simp [he]
        have hmax' : (Append s p).2.maxTime = s.maxTime := Append_error_maxTime he
        exact ih (Append s p).2 (by rw [hmin]; exact h0) (by rw [hmax']; exact hmax)

/-- C7: minTime equals the timestamp of the first accepted sample of the run
whose timestamp is nonzero, and once set it is never altered by any later
append, accepted or rejected. -/
theorem minTime_first_nonzero (ps qs : List Profile) (t : Int)
    (h : firstAccNZ NewMemSeries ps = some t) :
    (applyRun NewMemSeries (ps ++ qs)).minTime = t := by
  have htz : t ≠ 0 := firstAccNZ_some_ne_zero ps NewMemSeries t h
  have hps : (applyRun NewMemSeries ps).minTime = t := by
    rw [minTime_run_eq ps NewMemSeries rfl (by rw [NewMemSeries_maxTime]), h]
    rfl
  rw [applyRun_append, minTime_stable qs (applyRun NewMemSeries ps) (by rw [hps]; exact htz), hps]

/-- Witness for C7: a concrete accepted sample at t = 5 followed by a
rejected out-of-order sample; minTime stays 5. -/
theorem minTime_first_nonzero_witness :
    firstAccNZ NewMemSeries [mkProf 5] = some 5 ∧
    (applyRun NewMemSeries ([mkProf 5] ++ [mkProf 3])).minTime = 5 :=
  ⟨by decide, minTime_first_nonzero [mkProf 5] [mkProf 3] 5 (by decide)⟩

end Parca

namespace Parca

theorem writeAt_ne_nil (col : List Chunk) (slot : Nat) (v : Int) : writeAt col slot v ≠ [] := by
  simp [writeAt]

theorem tsWriteAt_ne_nil (col : List TimestampChunk) (slot : Nat) (t : Int) :
    tsWriteAt col slot t ≠ [] := by
  simp [tsWriteAt]

theorem newCol_length {n : Nat} (slot : Nat) (v : Int) (hn : 1 ≤ n) :
    (newCol n slot v).length = n := by
  simp [newCol]
  omega

theorem mem_insertOne_length {m : KeyCols} {n slot : Nat} {k : NodeKey} {v : Int}
    (hn : 1 ≤ n) (hm : ∀ kc ∈ m, kc.2.length = n) :
    ∀ kc ∈ insertOne m n slot k v, kc.2.length = n := by
  intro kc hkc
  unfold insertOne at hkc
  by_cases hk : hasKey m k
  · rw [if_pos hk] at hkc
    obtain ⟨kc0, hkc0, heq⟩ := List.mem_map.mp hkc
    by_cases h : kc0.1 = k
    · rw [if_pos h] at heq
      have h0 := hm kc0 hkc0
      have hne : kc0.2 ≠ [] := List.ne_nil_of_length_pos (by omega)
      rw [← heq]
      exact (length_writeAt kc0.2 slot v hne).trans h0
    · rw [if_neg h] at heq
      rw [← heq]
      exact hm kc0 hkc0
  · rw [if_neg hk] at hkc
    rcases List.mem_append.mp hkc with h | h
    · exact hm kc h
    · rw [List.mem_singleton.mp h]
      exact newCol_length slot v hn

theorem insertVals_length_mem (n slot : Nat) (hn : 1 ≤ n) (vals : List (NodeKey × Int)) :
    ∀ (m : KeyCols), (∀ kc ∈ m, kc.2.length = n) →
    ∀ kc ∈ insertVals m n slot vals, kc.2.length = n := by
  induction vals with
  | nil => intro m hm; exact hm
  | cons kv rest ih =>
    intro m hm
    exact ih (insertOne m n slot kv.1 kv.2) (mem_insertOne_length hn hm)

theorem tsBoundsStep_durations (s : MemSeries) (t : Int) :
    (tsBoundsStep s t).durations = s.durations := rfl

theorem tsBoundsStep_periods (s : MemSeries) (t : Int) : (tsBoundsStep s t).periods = s.periods :=
  rfl

theorem tsBoundsStep_flatValues (s : MemSeries) (t : Int) :
    (tsBoundsStep s t).flatValues = s.flatValues := rfl

theorem tsBoundsStep_cumulativeValues (s : MemSeries) (t : Int) :
    (tsBoundsStep s t).cumulativeValues = s.cumulativeValues := rfl

theorem writeFixed_flatValues (s : MemSeries) (slot : Nat) (p : Profile) :
    (writeFixed s slot p).flatValues = s.flatValues := rfl

theorem writeFixed_cumulativeValues (s : MemSeries) (slot : Nat) (p : Profile) :
    (writeFixed s slot p).cumulativeValues = s.cumulativeValues := rfl

theorem appendTreeStep_timestamps (s : MemSeries) (slot : Nat) (p : Profile) :
    (appendTreeStep s slot p).timestamps = s.timestamps := rfl

theorem appendTreeStep_durations (s : MemSeries) (slot : Nat) (p : Profile) :
    (appendTreeStep s slot p).durations = s.durations := rfl

theorem appendTreeStep_periods (s : MemSeries) (slot : Nat) (p : Profile) :
    (appendTreeStep s slot p).periods = s.periods := rfl

theorem roll_index_parallel (s : MemSeries) (t : Int) (hip : IndexParallel s) :
    IndexParallel (roll s t) := by
  obtain ⟨hpos, hdur, hper, hflat, hcum⟩ := hip
  refine ⟨?_, ?_, ?_, ?_, ?_⟩
  · simp [roll]
  · simp [roll, hdur]
  · simp [roll, hper]
  · intro kc hkc
    obtain ⟨kc0, hkc0, heq⟩ := List.mem_map.mp hkc
    rw [← heq]
    simp [roll, hflat kc0 hkc0]
  · intro kc hkc
    obtain ⟨kc0, hkc0, heq⟩ := List.mem_map.mp hkc
    rw [← heq]
    simp [roll, hcum kc0 hkc0]

theorem tail_steps_index_parallel (s1 : MemSeries) (slot : Nat) (p : Profile)
    (hip : IndexParallel s1) :
    IndexParallel
      (bookkeep (tsBoundsStep (writeFixed (appendTreeStep s1 slot p) slot p) p.timestamp)
        p.timestamp) := by
  obtain ⟨hpos, hdur, hper, hflat, hcum⟩ := hip
  have hts_ne : s1.timestamps ≠ [] := List.ne_nil_of_length_pos hpos
  have hdur_ne : s1.durations ≠ [] := List.ne_nil_of_length_pos (by omega)
  have hper_ne : s1.periods ≠ [] := List.ne_nil_of_length_pos (by omega)
  have hts : (bookkeep (tsBoundsStep (writeFixed (appendTreeStep s1 slot p) slot p) p.timestamp)
      p.timestamp).timestamps.length = s1.timestamps.length := by
    rw [bookkeep_timestamps, tsBoundsStep_timestamps, writeFixed_timestamps,
      appendTreeStep_timestamps, length_tsUpdateBounds _ _ (tsWriteAt_ne_nil _ _ _),
      length_tsWriteAt _ _ _ hts_ne]
  refine ⟨?_, ?_, ?_, ?_, ?_⟩
  · rw [hts]; exact hpos
  · rw [hts, bookkeep_durations, tsBoundsStep_durations, writeFixed_durations,
      appendTreeStep_durations, length_writeAt _ _ _ hdur_ne, hdur]
  · rw [hts, bookkeep_periods, tsBoundsStep_periods, writeFixed_periods, appendTreeStep_periods,
      length_writeAt _ _ _ hper_ne, hper]
  · rw [hts, bookkeep_flatValues, tsBoundsStep_flatValues, writeFixed_flatValues,
      appendTreeStep_flatValues]
    exact insertVals_length_mem _ slot hpos p.flatVals s1.flatValues hflat
  · rw [hts, bookkeep_cumulativeValues, tsBoundsStep_cumulativeValues,
      writeFixed_cumulativeValues, appendTreeStep_cumulativeValues]
    exact insertVals_length_mem _ slot hpos p.cumulativeVals s1.cumulativeValues hcum

theorem applyAccepted_index_parallel (s : MemSeries) (p : Profile) (hip : IndexParallel s) :
    IndexParallel (applyAccepted s p) := by
  unfold applyAccepted
  cases hroll : needsRoll s
  · simpa using tail_steps_index_parallel s (s.numSamples % samplesPerChunk) p hip
  · simpa [roll_numSamples] using
      tail_steps_index_parallel (roll s p.timestamp) (s.numSamples % samplesPerChunk) p
        (roll_index_parallel s p.timestamp hip)

theorem fixTags_index_parallel (s : MemSeries) (p : Profile) (hip : IndexParallel s) :
    IndexParallel (fixTags s p) := by
  unfold IndexParallel at hip ⊢
  rw [fixTags_timestamps, fixTags_durations, fixTags_periods, fixTags_flatValues,
    fixTags_cumulativeValues]
  exact hip

/-- C2: every successful Append preserves the invariant that the duration and
period columns and every per-key column of flatValues and cumulativeValues
have exactly as many chunks as the timestamp column, so a (chunk ordinal,
slot) pair addresses the same logical sample across all columns. -/
theorem append_preserves_index_parallel (s : MemSeries) (p : Profile)
    (hip : IndexParallel s) (h : (Append s p).1 = none) :
    IndexParallel (Append s p).2 := by
  rw [(Append_ok_elim h).1]
  exact applyAccepted_index_parallel (fixTags s p) p (fixTags_index_parallel s p hip)

/-- Witness for C2: a fresh series satisfies the invariant and keeps it after
a concrete accepted append. -/
theorem append_preserves_index_parallel_witness :
    IndexParallel NewMemSeries ∧ (Append NewMemSeries (mkProf 3)).1 = none ∧
    IndexParallel (Append NewMemSeries (mkProf 3)).2 :=
  ⟨by unfold IndexParallel; decide, by decide,
    append_preserves_index_parallel NewMemSeries (mkProf 3)
      (by unfold IndexParallel; decide) (by decide)⟩

end Parca

namespace Parca

theorem lastChunk_nil : lastChunk [] = [] := rfl

theorem colChunks_of_not_hasKey {m : KeyCols} {k : NodeKey} (h : ¬ hasKey m k) :
    colChunks m k = [] := by
  induction m with
  | nil => rfl
  | cons kc rest ih =>
    rw [hasKey, List.map_cons, List.mem_cons, not_or] at h
    rw [colChunks, if_neg (fun hh => h.1 hh.symm), ih fun hh => h.2 hh]

theorem colChunks_writeMap (m : KeyCols) (slot : Nat) (v : Int) (k : NodeKey) :
    colChunks (m.map (fun kc => if kc.1 = k then (kc.1, writeAt kc.2 slot v) else kc)) k =
      if hasKey m k then writeAt (colChunks m k) slot v else colChunks m k := by
  induction m with
  | nil => rfl
  | cons kc rest ih =>
    by_cases hbe : kc.1 = k
    · rw [List.map_cons, if_pos hbe, colChunks, if_pos hbe, if_pos (by
        rw [hasKey, List.map_cons, List.mem_cons]
        exact Or.inl hbe.symm), colChunks, if_pos hbe]
    · by_cases hk : hasKey rest k
      · rw [List.map_cons, if_neg hbe, colChunks, if_neg hbe, ih, if_pos hk, if_pos (by
          rw [hasKey, List.map_cons, List.mem_cons]
          exact Or.inr hk), colChunks, if_neg hbe]
      · rw [List.map_cons, if_neg hbe, colChunks, if_neg hbe, ih, if_neg hk, if_neg (by
          rw [hasKey, List.map_cons, List.mem_cons, not_or]
          exact ⟨fun hh => hbe hh.symm, hk⟩), colChunks, if_neg hbe]

theorem colChunks_writeMap_other (m : KeyCols) (slot : Nat) (v : Int) {k k' : NodeKey}
    (h : k' ≠ k) :
    colChunks (m.map (fun kc => if kc.1 = k then (kc.1, writeAt kc.2 slot v) else kc)) k' =
      colChunks m k' := by
  induction m with
  | nil => rfl
  | cons kc rest ih =>
    by_cases hbe : kc.1 = k
    · have hbe' : kc.1 ≠ k' := fun hh => h (hh ▸ hbe.symm ▸ rfl)
      rw [List.map_cons, if_pos hbe, colChunks, if_neg hbe', colChunks, if_neg hbe', ih]
    · by_cases hbe' : kc.1 = k'
      · rw [List.map_cons, if_neg hbe, colChunks, if_pos hbe', colChunks, if_pos hbe']
      · rw [List.map_cons, if_neg hbe, colChunks, if_neg hbe', colChunks, if_neg hbe', ih]

theorem colChunks_append_self {m : KeyCols} {k : NodeKey} (h : ¬ hasKey m k)
    (c : List Chunk) : colChunks (m ++ [(k, c)]) k = c := by
  induction m with
  | nil => simp [colChunks]
  | cons kc rest ih =>
    rw [hasKey, List.map_cons, List.mem_cons, not_or] at h
    rw [List.cons_append, colChunks, if_neg (fun hh => h.1 hh.symm), ih fun hh => h.2 hh]

theorem colChunks_append_other {k k' : NodeKey} (m : KeyCols) (c : List Chunk) (h : k' ≠ k) :
    colChunks (m ++ [(k, c)]) k' = colChunks m k' := by
  induction m with
  | nil =>
    have hne : k ≠ k' := fun hh => h hh.symm
    simp [colChunks, hne]
  | cons kc rest ih =>
    by_cases hbe : kc.1 = k'
    · rw [List.cons_append, colChunks, if_pos hbe, colChunks, if_pos hbe]
    · rw [List.cons_append, colChunks, if_neg hbe, colChunks, if_neg hbe, ih]

theorem lastChunk_colChunks_insertOne (m : KeyCols) (n slot : Nat) (k : NodeKey) (v : Int) :
    lastChunk (colChunks (insertOne m n slot k v) k) =
      (slot, v) :: lastChunk (colChunks m k) := by
  unfold insertOne
  by_cases hk : hasKey m k
  · rw [if_pos hk, colChunks_writeMap, if_pos hk, lastChunk_writeAt]
  · rw [if_neg hk, colChunks_append_self hk, colChunks_of_not_hasKey hk, newCol,
      lastChunk_concat, lastChunk_nil]

theorem colChunks_insertOne_other (m : KeyCols) (n slot : Nat) (v : Int) {k k' : NodeKey}
    (h : k' ≠ k) : colChunks (insertOne m n slot k v) k' = colChunks m k' := by
  unfold insertOne
  by_cases hk : hasKey m k
  · rw [if_pos hk, colChunks_writeMap_other m slot v h]
  · rw [if_neg hk, colChunks_append_other m _ h]

theorem colChunks_insertVals_not_mem (n slot : Nat) (vals : List (NodeKey × Int)) :
    ∀ (m : KeyCols) (k : NodeKey), k ∉ vals.map Prod.fst →
      colChunks (insertVals m n slot vals) k = colChunks m k := by
  induction vals with
  | nil => intro m k _; rfl
  | cons kv rest ih =>
    intro m k hk
    rw [List.map_cons, List.mem_cons, not_or] at hk
    rw [insertVals, ih _ k hk.2, colChunks_insertOne_other _ _ _ _ hk.1]

theorem insertVals_tail_cons (n slot : Nat) (vals : List (NodeKey × Int)) :
    ∀ (m : KeyCols), (vals.map Prod.fst).Nodup →
      ∀ kv ∈ vals, lastChunk (colChunks (insertVals m n slot vals) kv.1) =
        (slot, kv.2) :: lastChunk (colChunks m kv.1) := by
  induction vals with
  | nil => intro m _ kv hkv; cases hkv
  | cons kv0 rest ih =>
    intro m hnd kv hkv
    rw [List.map_cons, List.nodup_cons] at hnd
    rcases List.mem_cons.mp hkv with heq | hmem
    · subst heq
      rw [insertVals, colChunks_insertVals_not_mem n slot rest _ kv.1 hnd.1,
        lastChunk_colChunks_insertOne]
    · have hne : kv.1 ≠ kv0.1 := by
        intro hh
        exact hnd.1 (hh ▸ List.mem_map_of_mem Prod.fst hmem)
      rw [insertVals, ih _ hnd.2 kv hmem, colChunks_insertOne_other _ _ _ _ hne]

theorem lastChunk_colChunks_rollmap (m : KeyCols) (k : NodeKey) :
    lastChunk (colChunks (m.map (fun kc => (kc.1, kc.2 ++ [[]]))) k) = [] := by
  induction m with
  | nil => rfl
  | cons kc rest ih =>
    by_cases h : kc.1 = k
    · rw [List.map_cons, colChunks, if_pos h, lastChunk_concat]
    · rw [List.map_cons, colChunks, if_neg h, ih]

end Parca

namespace Parca

theorem roll_flatValues (s : MemSeries) (t : Int) :
    (roll s t).flatValues = s.flatValues.map (fun kc => (kc.1, kc.2 ++ [[]])) := rfl

theorem roll_cumulativeValues (s : MemSeries) (t : Int) :
    (roll s t).cumulativeValues = s.cumulativeValues.map (fun kc => (kc.1, kc.2 ++ [[]])) := rfl

theorem applyAccepted_flat_tail (s : MemSeries) (p : Profile)
    (hfn : (p.flatVals.map Prod.fst).Nodup) :
    ∀ kv ∈ p.flatVals,
      lastChunk (colChunks (applyAccepted s p).flatValues kv.1) =
        if needsRoll s then [(s.numSamples % samplesPerChunk, kv.2)]
        else (s.numSamples % samplesPerChunk, kv.2) ::
          lastChunk (colChunks s.flatValues kv.1) := by
  intro kv hkv
  unfold applyAccepted
  cases hroll : needsRoll s
  · simp only [Bool.false_eq_true, if_false, bookkeep_flatValues, tsBoundsStep_flatValues,
      writeFixed_flatValues, appendTreeStep_flatValues]
    exact insertVals_tail_cons _ _ p.flatVals s.flatValues hfn kv hkv
  · simp only [if_true, bookkeep_flatValues, tsBoundsStep_flatValues, writeFixed_flatValues,
      appendTreeStep_flatValues]
    rw [insertVals_tail_cons _ _ p.flatVals _ hfn kv hkv, roll_flatValues,
      lastChunk_colChunks_rollmap, roll_numSamples]

theorem applyAccepted_cum_tail (s : MemSeries) (p : Profile)
    (hcn : (p.cumulativeVals.map Prod.fst).Nodup) :
    ∀ kv ∈ p.cumulativeVals,
      lastChunk (colChunks (applyAccepted s p).cumulativeValues kv.1) =
        if needsRoll s then [(s.numSamples % samplesPerChunk, kv.2)]
        else (s.numSamples % samplesPerChunk, kv.2) ::
          lastChunk (colChunks s.cumulativeValues kv.1) := by
  intro kv hkv
  unfold applyAccepted
  cases hroll : needsRoll s
  · simp only [Bool.false_eq_true, if_false, bookkeep_cumulativeValues,
      tsBoundsStep_cumulativeValues, writeFixed_cumulativeValues, appendTreeStep_cumulativeValues]
    exact insertVals_tail_cons _ _ p.cumulativeVals s.cumulativeValues hcn kv hkv
  · simp only [if_true, bookkeep_cumulativeValues, tsBoundsStep_cumulativeValues,
      writeFixed_cumulativeValues, appendTreeStep_cumulativeValues]
    rw [insertVals_tail_cons _ _ p.cumulativeVals _ hcn kv hkv, roll_cumulativeValues,
      lastChunk_colChunks_rollmap, roll_numSamples]

theorem applyAccepted_ts_tail_roll (s : MemSeries) (p : Profile) (hroll : needsRoll s = true) :
    (lastTsChunk (applyAccepted s p).timestamps).writes =
      [(s.numSamples % samplesPerChunk, p.timestamp)] := by
  unfold applyAccepted
  simp [hroll, bookkeep_timestamps, tsBoundsStep_timestamps, writeFixed_timestamps,
    appendTreeStep_timestamps, lastTsChunk_tsUpdateBounds_writes, lastTsChunk_tsWriteAt,
    lastTsChunk_roll, roll_numSamples]

set_option maxRecDepth 40000 in
/-- C8 fails as stated: rolls do not always land the new value at slot 0.
In this state — reachable after 65641 accepted appends, once the uint16
counter has wrapped and the tail chunk fills out of phase with the slot
counter — the tail timestamp chunk is full, so the append rolls, yet the
value lands in the fresh chunk at slot 104, not slot 0. -/
theorem roll_slot_counterexample :
    (Append c8State c8Prof).1 = none ∧
    needsRoll c8State = true ∧
    (Append c8State c8Prof).2.timestamps.length = c8State.timestamps.length + 1 ∧
    (lastTsChunk (Append c8State c8Prof).2.timestamps).writes = [(104, 104)] ∧
    (104 : Nat) ≠ 0 := by decide

/-- C8 (amended): every accepted append writes the sample's timestamp,
duration and period, and delegates the value-tree insertion, at the single
slot index numSamples mod 120 (computed from numSamples before it is
incremented), with the tree insertion performed strictly after the roll
decision; when a roll occurred, each written value lands in the newly rolled
tail chunk at that same slot — which is slot 0 exactly in the pre-wrap
regime, where rolls only happen when numSamples is a multiple of 120. -/
theorem append_slot_discipline (s : MemSeries) (p : Profile) (h : (Append s p).1 = none)
    (hfn : (p.flatVals.map Prod.fst).Nodup) (hcn : (p.cumulativeVals.map Prod.fst).Nodup) :
    (Append s p).2.numSamples = (s.numSamples + 1) % uint16Mod ∧
    (lastTsChunk (Append s p).2.timestamps).writes.head? =
      some (s.numSamples % samplesPerChunk, p.timestamp) ∧
    (lastChunk (Append s p).2.durations).head? =
      some (s.numSamples % samplesPerChunk, p.duration) ∧
    (lastChunk (Append s p).2.periods).head? =
      some (s.numSamples % samplesPerChunk, p.period) ∧
    (∀ kv ∈ p.flatVals, (s.numSamples % samplesPerChunk, kv.2) ∈
      lastChunk (colChunks (Append s p).2.flatValues kv.1)) ∧
    (∀ kv ∈ p.cumulativeVals, (s.numSamples % samplesPerChunk, kv.2) ∈
      lastChunk (colChunks (Append s p).2.cumulativeValues kv.1)) ∧
    (needsRoll s = true →
      (lastTsChunk (Append s p).2.timestamps).writes =
        [(s.numSamples % samplesPerChunk, p.timestamp)] ∧
      (∀ kv ∈ p.flatVals, lastChunk (colChunks (Append s p).2.flatValues kv.1) =
        [(s.numSamples % samplesPerChunk, kv.2)]) ∧
      (∀ kv ∈ p.cumulativeVals, lastChunk (colChunks (Append s p).2.cumulativeValues kv.1) =
        [(s.numSamples % samplesPerChunk, kv.2)])) := by
  rw [(Append_ok_elim h).1]
  have hns : (fixTags s p).numSamples = s.numSamples := fixTags_numSamples s p
  have hroll : needsRoll (fixTags s p) = needsRoll s := needsRoll_fixTags s p
  have hflat := applyAccepted_flat_tail (fixTags s p) p hfn
  have hcum := applyAccepted_cum_tail (fixTags s p) p hcn
  rw [hns, hroll, fixTags_flatValues] at hflat
  rw [hns, hroll, fixTags_cumulativeValues] at hcum
  refine ⟨?_, ?_, ?_, ?_, ?_, ?_, ?_⟩
  · rw [applyAccepted_numSamples, hns]
  · rw [applyAccepted_ts_head, hns]
  · rw [applyAccepted_dur_head, hns]
  · rw [applyAccepted_per_head, hns]
  · intro kv hkv
    rw [hflat kv hkv]
    cases hr : needsRoll s <;> simp
  · intro kv hkv
    rw [hcum kv hkv]
    cases hr : needsRoll s <;> simp
  · intro hr
    refine ⟨?_, ?_, ?_⟩
    · rw [applyAccepted_ts_tail_roll (fixTags s p) p (hroll.trans hr), hns]
    · intro kv hkv
      rw [hflat kv hkv, hr]
      simp
    · intro kv hkv
      rw [hcum kv hkv, hr]
      simp

/-- Witness for the amended C8: a fresh series accepting its first sample
carrying one flat and one cumulative value. -/
theorem append_slot_discipline_witness :
    (Append NewMemSeries (withFlat (mkProf 9) [(4, 11)])).1 = none ∧
    (lastTsChunk (Append NewMemSeries (withFlat (mkProf 9) [(4, 11)])).2.timestamps).writes.head?
      = some (NewMemSeries.numSamples % samplesPerChunk, 9) ∧
    (∀ kv ∈ (withFlat (mkProf 9) [(4, 11)]).flatVals,
      (NewMemSeries.numSamples % samplesPerChunk, kv.2) ∈
        lastChunk (colChunks
          (Append NewMemSeries (withFlat (mkProf 9) [(4, 11)])).2.flatValues kv.1)) := by
  have h := append_slot_discipline NewMemSeries (withFlat (mkProf 9) [(4, 11)])
    (by decide) (by decide) (by decide)
  exact ⟨by decide, h.2.1, h.2.2.2.2.1⟩

end Parca

namespace Parca

theorem ne_of_not_hasKey {m : KeyCols} {kc : NodeKey × List Chunk} {k : NodeKey}
    (h : ¬ hasKey m k) (hkc : kc ∈ m) : kc.1 ≠ k := fun hh =>
  h (hh ▸ List.mem_map_of_mem Prod.fst hkc)

theorem insertVals_roll_mem (n slot : Nat) (hn : 1 ≤ n) (vals : List (NodeKey × Int)) :
    ∀ (done : List NodeKey) (m : KeyCols),
      (done ++ vals.map Prod.fst).Nodup →
      (∀ kc ∈ m, kc.2.length = n ∧
        (lastChunk kc.2).length = if kc.1 ∈ done then 1 else 0) →
      ∀ kc ∈ insertVals m n slot vals, kc.2.length = n ∧
        (lastChunk kc.2).length = if kc.1 ∈ done ++ vals.map Prod.fst then 1 else 0 := by
  induction vals with
  | nil =>
    intro done m _ hm kc hkc
    simpa using hm kc hkc
  | cons kv rest ih =>
    intro done m hnd hm
    rw [insertVals]
    have hknotdone : kv.1 ∉ done := by
      intro hin
      obtain ⟨_, _, hdisj⟩ := List.nodup_append.mp (by simpa using hnd)
      exact hdisj hin (List.mem_cons_self kv.1 _)
    have step : ∀ kc ∈ insertOne m n slot kv.1 kv.2, kc.2.length = n ∧
        (lastChunk kc.2).length = if kc.1 ∈ done ++ [kv.1] then 1 else 0 := by
      intro kc hkc
      unfold insertOne at hkc
      by_cases hk : hasKey m kv.1
      · rw [if_pos hk] at hkc
        obtain ⟨kc0, hkc0, heq⟩ := List.mem_map.mp hkc
        obtain ⟨hl0, ht0⟩ := hm kc0 hkc0
        by_cases hh : kc0.1 = kv.1
        · rw [if_pos hh] at heq
          rw [← heq]
          have hne : kc0.2 ≠ [] := List.ne_nil_of_length_pos (by omega)
          have htz : (lastChunk kc0.2).length = 0 := by
            rw [ht0, if_neg (hh ▸ hknotdone)]
          refine ⟨(length_writeAt kc0.2 slot kv.2 hne).trans hl0, ?_⟩
          rw [lastChunk_writeAt, if_pos (by simp [hh])]
          simp [htz]
        · rw [if_neg hh] at heq
          rw [← heq]
          refine ⟨hl0, ?_⟩
          rw [ht0]
          have : (kc0.1 ∈ done ++ [kv.1]) ↔ kc0.1 ∈ done := by simp [hh]
          by_cases hd : kc0.1 ∈ done
          · rw [if_pos hd, if_pos (this.mpr hd)]
          · rw [if_neg hd, if_neg (fun hx => hd (this.mp hx))]
      · rw [if_neg hk] at hkc
        rcases List.mem_append.mp hkc with hin | hin
        · obtain ⟨hl0, ht0⟩ := hm kc hin
          have hne := ne_of_not_hasKey hk hin
          refine ⟨hl0, ?_⟩
          rw [ht0]
          have : (kc.1 ∈ done ++ [kv.1]) ↔ kc.1 ∈ done := by simp [hne]
          by_cases hd : kc.1 ∈ done
          · rw [if_pos hd, if_pos (this.mpr hd)]
          · rw [if_neg hd, if_neg (fun hx => hd (this.mp hx))]
        · rw [List.mem_singleton.mp hin]
          refine ⟨newCol_length slot kv.2 hn, ?_⟩
          rw [newCol, lastChunk_concat, if_pos (by simp)]
          rfl
    have hnd' : ((done ++ [kv.1]) ++ rest.map Prod.fst).Nodup := by
      rw [List.append_assoc]
      simpa using hnd
    intro kc hkc
    obtain ⟨hl, ht⟩ := ih (done ++ [kv.1]) (insertOne m n slot kv.1 kv.2) hnd' step kc hkc
    refine ⟨hl, ?_⟩
    rw [ht, List.map_cons]
    have : (kc.1 ∈ (done ++ [kv.1]) ++ rest.map Prod.fst) ↔
        kc.1 ∈ done ++ kv.1 :: rest.map Prod.fst := by
      rw [List.append_assoc]
      rfl
    by_cases hd : kc.1 ∈ (done ++ [kv.1]) ++ rest.map Prod.fst
    · rw [if_pos hd, if_pos (this.mp hd)]
    · rw [if_neg hd, if_neg (fun hx => hd (this.mpr hx))]

end Parca

namespace Parca

theorem step_one_chunk (s : MemSeries) (p : Profile) (h1 : OneChunk s)
    (htail : tsTailLen s < samplesPerChunk) :
    OneChunk (applyAccepted s p) ∧ tsTailLen (applyAccepted s p) = tsTailLen s + 1 := by
  obtain ⟨hts, hdur, hper, hflat, hcum⟩ := h1
  have hroll : needsRoll s = false := by
    simp [needsRoll]
    omega
  have hts_ne : s.timestamps ≠ [] := List.ne_nil_of_length_pos (by omega)
  have hdur_ne : s.durations ≠ [] := List.ne_nil_of_length_pos (by omega)
  have hper_ne : s.periods ≠ [] := List.ne_nil_of_length_pos (by omega)
  unfold applyAccepted
  simp only [hroll, Bool.false_eq_true, if_false]
  refine ⟨⟨?_, ?_, ?_, ?_, ?_⟩, ?_⟩
  · rw [bookkeep_timestamps, tsBoundsStep_timestamps, writeFixed_timestamps,
      appendTreeStep_timestamps, length_tsUpdateBounds _ _ (tsWriteAt_ne_nil _ _ _),
      length_tsWriteAt _ _ _ hts_ne, hts]
  · rw [bookkeep_durations, tsBoundsStep_durations, writeFixed_durations, appendTreeStep_durations,
      length_writeAt _ _ _ hdur_ne, hdur]
  · rw [bookkeep_periods, tsBoundsStep_periods, writeFixed_periods, appendTreeStep_periods,
      length_writeAt _ _ _ hper_ne, hper]
  · rw [bookkeep_flatValues, tsBoundsStep_flatValues, writeFixed_flatValues,
      appendTreeStep_flatValues, hts]
    exact insertVals_length_mem 1 _ (by omega) p.flatVals s.flatValues hflat
  · rw [bookkeep_cumulativeValues, tsBoundsStep_cumulativeValues, writeFixed_cumulativeValues,
      appendTreeStep_cumulativeValues, hts]
    exact insertVals_length_mem 1 _ (by omega) p.cumulativeVals s.cumulativeValues hcum
  · rw [tsTailLen, bookkeep_timestamps, tsBoundsStep_timestamps, writeFixed_timestamps,
      appendTreeStep_timestamps, lastTsChunk_tsUpdateBounds_writes, lastTsChunk_tsWriteAt]
    rfl

theorem step_roll_chunk (s : MemSeries) (p : Profile) (h1 : OneChunk s)
    (htail : samplesPerChunk ≤ tsTailLen s)
    (hfn : (p.flatVals.map Prod.fst).Nodup) (hcn : (p.cumulativeVals.map Prod.fst).Nodup) :
    (applyAccepted s p).timestamps.length = 2 ∧
    (applyAccepted s p).durations.length = 2 ∧
    (applyAccepted s p).periods.length = 2 ∧
    (∀ kc ∈ (applyAccepted s p).flatValues, kc.2.length = 2) ∧
    (∀ kc ∈ (applyAccepted s p).cumulativeValues, kc.2.length = 2) ∧
    tsTailLen (applyAccepted s p) = 1 ∧
    (lastChunk (applyAccepted s p).durations).length = 1 ∧
    (lastChunk (applyAccepted s p).periods).length = 1 ∧
    (∀ kc ∈ (applyAccepted s p).flatValues,
      (lastChunk kc.2).length = if kc.1 ∈ p.flatVals.map Prod.fst then 1 else 0) ∧
    (∀ kc ∈ (applyAccepted s p).cumulativeValues,
      (lastChunk kc.2).length = if kc.1 ∈ p.cumulativeVals.map Prod.fst then 1 else 0) := by
  obtain ⟨hts, hdur, hper, hflat, hcum⟩ := h1
  have hroll : needsRoll s = true := by
    simp [needsRoll]
    omega
  have hrflat : ∀ kc ∈ (roll s p.timestamp).flatValues, kc.2.length = 2 ∧
      (lastChunk kc.2).length = if kc.1 ∈ ([] : List NodeKey) then 1 else 0 := by
    rw [roll_flatValues]
    intro kc hkc
    obtain ⟨kc0, hkc0, heq⟩ := List.mem_map.mp hkc
    rw [← heq]
    refine ⟨by simp [hflat kc0 hkc0], ?_⟩
    rw [lastChunk_concat]
    simp
  have hrcum : ∀ kc ∈ (roll s p.timestamp).cumulativeValues, kc.2.length = 2 ∧
      (lastChunk kc.2).length = if kc.1 ∈ ([] : List NodeKey) then 1 else 0 := by
    rw [roll_cumulativeValues]
    intro kc hkc
    obtain ⟨kc0, hkc0, heq⟩ := List.mem_map.mp hkc
    rw [← heq]
    refine ⟨by simp [hcum kc0 hkc0], ?_⟩
    rw [lastChunk_concat]
    simp
  have hrtslen : (roll s p.timestamp).timestamps.length = 2 := by
    rw [roll_timestamps_length, hts]
  have hfl := insertVals_roll_mem 2 ((roll s p.timestamp).numSamples % samplesPerChunk)
    (by omega) p.flatVals [] (roll s p.timestamp).flatValues (by simpa using hfn) hrflat
  have hcu := insertVals_roll_mem 2 ((roll s p.timestamp).numSamples % samplesPerChunk)
    (by omega) p.cumulativeVals [] (roll s p.timestamp).cumulativeValues (by simpa using hcn)
    hrcum
  unfold applyAccepted
  simp only [hroll, if_true]
  have hrts_ne : (roll s p.timestamp).timestamps ≠ [] :=
    List.ne_nil_of_length_pos (by omega)
  have hrdur_ne : (roll s p.timestamp).durations ≠ [] := by
    simp [roll]
  have hrper_ne : (roll s p.timestamp).periods ≠ [] := by
    simp [roll]
  refine ⟨?_, ?_, ?_, ?_, ?_, ?_, ?_, ?_, ?_, ?_⟩
  · rw [bookkeep_timestamps, tsBoundsStep_timestamps, writeFixed_timestamps,
      appendTreeStep_timestamps, length_tsUpdateBounds _ _ (tsWriteAt_ne_nil _ _ _),
      length_tsWriteAt _ _ _ hrts_ne, hrtslen]
  · rw [bookkeep_durations, tsBoundsStep_durations, writeFixed_durations, appendTreeStep_durations,
      length_writeAt _ _ _ hrdur_ne]
    simp [roll, hdur]
  · rw [bookkeep_periods, tsBoundsStep_periods, writeFixed_periods, appendTreeStep_periods,
      length_writeAt _ _ _ hrper_ne]
    simp [roll, hper]
  · rw [bookkeep_flatValues, tsBoundsStep_flatValues, writeFixed_flatValues,
      appendTreeStep_flatValues, hrtslen]
    intro kc hkc
    exact (hfl kc hkc).1
  · rw [bookkeep_cumulativeValues, tsBoundsStep_cumulativeValues, writeFixed_cumulativeValues,
      appendTreeStep_cumulativeValues, hrtslen]
    intro kc hkc
    exact (hcu kc hkc).1
  · rw [tsTailLen, bookkeep_timestamps, tsBoundsStep_timestamps, writeFixed_timestamps,
      appendTreeStep_timestamps, lastTsChunk_tsUpdateBounds_writes, lastTsChunk_tsWriteAt,
      lastTsChunk_roll]
    rfl
  · rw [bookkeep_durations, tsBoundsStep_durations, writeFixed_durations, appendTreeStep_durations,
      lastChunk_writeAt]
    have : lastChunk (roll s p.timestamp).durations = [] := by
      simp [roll, lastChunk_concat]
    rw [this]
    rfl
  · rw [bookkeep_periods, tsBoundsStep_periods, writeFixed_periods, appendTreeStep_periods,
      lastChunk_writeAt]
    have : lastChunk (roll s p.timestamp).periods = [] := by
      simp [roll, lastChunk_concat]
    rw [this]
    rfl
  · rw [bookkeep_flatValues, tsBoundsStep_flatValues, writeFixed_flatValues,
      appendTreeStep_flatValues, hrtslen]
    intro kc hkc
    have := (hfl kc hkc).2
    simpa using this
  · rw [bookkeep_cumulativeValues, tsBoundsStep_cumulativeValues, writeFixed_cumulativeValues,
      appendTreeStep_cumulativeValues, hrtslen]
    intro kc hkc
    have := (hcu kc hkc).2
    simpa using this

end Parca

namespace Parca

theorem incFromB_append (xs ys : List Profile) : ∀ (m : Int),
    incFromB m (xs ++ ys) = (incFromB m xs && incFromB (lastTsD xs m) ys) := by
  induction xs with
  | nil => intro m; simp [incFromB, lastTsD]
  | cons p rest ih =>
    intro m
    rw [List.cons_append, incFromB, incFromB, ih p.timestamp, lastTsD, Bool.and_assoc]

theorem allAccepted_append (xs ys : List Profile) : ∀ (s : MemSeries),
    allAccepted s (xs ++ ys) = (allAccepted s xs && allAccepted (applyRun s xs) ys) := by
  induction xs with
  | nil => intro s; simp [allAccepted, applyRun_nil]
  | cons p rest ih =>
    intro s
    rw [List.cons_append, allAccepted, allAccepted, ih (Append s p).2, applyRun_cons,
      Bool.and_assoc]

theorem fixTags_one_chunk (s : MemSeries) (p : Profile) :
    OneChunk (fixTags s p) ↔ OneChunk s := by
  unfold OneChunk
  rw [fixTags_timestamps, fixTags_durations, fixTags_periods, fixTags_flatValues,
    fixTags_cumulativeValues]

theorem tsTailLen_fixTags (s : MemSeries) (p : Profile) :
    tsTailLen (fixTags s p) = tsTailLen s := by
  rw [tsTailLen, fixTags_timestamps, tsTailLen]

theorem run_one_chunk (PT ST : ValueType) (qs : List Profile) : ∀ (s : MemSeries),
    OneChunk s →
    tsTailLen s + qs.length ≤ samplesPerChunk →
    incFromB s.maxTime qs = true →
    (∀ p ∈ qs, p.periodType = PT ∧ p.sampleType = ST) →
    (s.numSamples = 0 ∨ (s.periodType = PT ∧ s.sampleType = ST)) →
    allAccepted s qs = true ∧
    OneChunk (applyRun s qs) ∧
    tsTailLen (applyRun s qs) = tsTailLen s + qs.length ∧
    (applyRun s qs).maxTime = lastTsD qs s.maxTime ∧
    ((applyRun s qs).numSamples = 0 ∨
      ((applyRun s qs).periodType = PT ∧ (applyRun s qs).sampleType = ST)) := by
  induction qs with
  | nil =>
    intro s h1 _ _ _ hI
    exact ⟨rfl, h1, by simp [applyRun_nil], rfl, hI⟩
  | cons p rest ih =>
    intro s h1 hcap hinc htags hI
    rw [incFromB, Bool.and_eq_true, decide_eq_true_eq] at hinc
    obtain ⟨ht, hincrest⟩ := hinc
    have hptags := htags p (List.mem_cons_self p rest)
    have htag : s.numSamples = 0 ∨
        (s.periodType = p.periodType ∧ s.sampleType = p.sampleType) := by
      rcases hI with h0 | ⟨ha, hb⟩
      · exact Or.inl h0
      · exact Or.inr ⟨by rw [ha, hptags.1], by rw [hb, hptags.2]⟩
    obtain ⟨hok, _, hmax, hpt, hst⟩ := append_run_step s p ht htag
    have hstate : (Append s p).2 = applyAccepted (fixTags s p) p := (Append_ok_elim hok).1
    have hstep := step_one_chunk (fixTags s p) p ((fixTags_one_chunk s p).mpr h1)
      (by rw [tsTailLen_fixTags]; simp at hcap; omega)
    rw [← hstate, tsTailLen_fixTags] at hstep
    obtain ⟨h1', htail'⟩ := hstep
    obtain ⟨ihAcc, ihOne, ihTail, ihMax, ihTags⟩ := ih (Append s p).2 h1'
      (by rw [htail']; simp at hcap ⊢; omega)
      (by rw [hmax]; exact hincrest)
      (fun q hq => htags q (List.mem_cons_of_mem p hq))
      (Or.inr ⟨by rw [hpt, hptags.1], by rw [hst, hptags.2]⟩)
    refine ⟨?_, ?_, ?_, ?_, ?_⟩
    · rw [allAccepted, hok]
      simpa using ihAcc
    · rw [applyRun_cons]; exact ihOne
    · rw [applyRun_cons, ihTail, htail']
      simp
      omega
    · rw [applyRun_cons, ihMax, hmax]
      rfl
    · rw [applyRun_cons]; exact ihTags

end Parca

namespace Parca

set_option maxRecDepth 100000 in
/-- C1 fails as stated in its tail-sample-count part: in a 121-sample run
whose only value key (key 1) appears in sample 1 only, the 121st append rolls
the key's column to 2 chunks, but the fresh tail chunk of that column reports
0 samples, not 1, because the key receives no value in the 121st sample. -/
theorem roll_stale_key_counterexample :
    allAccepted NewMemSeries c1Run = true ∧
    c1Run.length = 121 ∧
    (colChunks (applyRun NewMemSeries c1Run).flatValues 1).length = 2 ∧
    (lastChunk (colChunks (applyRun NewMemSeries c1Run).flatValues 1)).length = 0 ∧
    (lastChunk (colChunks (applyRun NewMemSeries c1Run).flatValues 1)).length ≠ 1 := by
  decide

/-- C1 (amended): for every 121-sample accepted run from a fresh series
(strictly increasing timestamps, consistent tags, duplicate-free keys in the
121st sample), after 120 appends the timestamp, duration and period columns
and every per-key column have exactly 1 chunk; the 121st append rolls every
one of those columns to exactly 2 chunks; the new tail chunks of the fixed
columns report 1 sample each, and a per-key column's new tail chunk reports
1 sample if its key receives a value in the 121st sample and 0 samples
otherwise. -/
theorem roll_at_sample_121 (PT ST : ValueType) (qs : List Profile) (q : Profile)
    (hlen : qs.length = samplesPerChunk)
    (hinc : incFromB 0 (qs ++ [q]) = true)
    (htags : ∀ p ∈ qs ++ [q], p.periodType = PT ∧ p.sampleType = ST)
    (hfn : (q.flatVals.map Prod.fst).Nodup) (hcn : (q.cumulativeVals.map Prod.fst).Nodup) :
    allAccepted NewMemSeries (qs ++ [q]) = true ∧
    OneChunk (applyRun NewMemSeries qs) ∧
    tsTailLen (applyRun NewMemSeries qs) = samplesPerChunk ∧
    (applyRun NewMemSeries (qs ++ [q])).timestamps.length = 2 ∧
    (applyRun NewMemSeries (qs ++ [q])).durations.length = 2 ∧
    (applyRun NewMemSeries (qs ++ [q])).periods.length = 2 ∧
    (∀ kc ∈ (applyRun NewMemSeries (qs ++ [q])).flatValues, kc.2.length = 2) ∧
    (∀ kc ∈ (applyRun NewMemSeries (qs ++ [q])).cumulativeValues, kc.2.length = 2) ∧
    tsTailLen (applyRun NewMemSeries (qs ++ [q])) = 1 ∧
    (lastChunk (applyRun NewMemSeries (qs ++ [q])).durations).length = 1 ∧
    (lastChunk (applyRun NewMemSeries (qs ++ [q])).periods).length = 1 ∧
    (∀ kc ∈ (applyRun NewMemSeries (qs ++ [q])).flatValues,
      (lastChunk kc.2).length = if kc.1 ∈ q.flatVals.map Prod.fst then 1 else 0) ∧
    (∀ kc ∈ (applyRun NewMemSeries (qs ++ [q])).cumulativeValues,
      (lastChunk kc.2).length = if kc.1 ∈ q.cumulativeVals.map Prod.fst then 1 else 0) := by
  rw [incFromB_append, Bool.and_eq_true] at hinc
  obtain ⟨hincqs, hincq⟩ := hinc
  rw [incFromB, Bool.and_eq_true, decide_eq_true_eq] at hincq
  have hq_ts : lastTsD qs 0 < q.timestamp := hincq.1
  obtain ⟨hAcc, hOne, hTail, hMax, hTags⟩ := run_one_chunk PT ST qs NewMemSeries
    (by unfold OneChunk; refine ⟨rfl, rfl, rfl, ?_, ?_⟩ <;> intro kc hkc <;> cases hkc)
    (by rw [hlen]; rfl)
    hincqs
    (fun p hp => htags p (List.mem_append_left [q] hp))
    (Or.inl rfl)
  have hTail0 : tsTailLen (applyRun NewMemSeries qs) = samplesPerChunk := by
    rw [hTail, hlen]
    rfl
  have htagq := htags q (List.mem_append_right qs (List.mem_singleton_self q))
  have hmaxlt : (applyRun NewMemSeries qs).maxTime < q.timestamp := by
    rw [hMax, NewMemSeries_maxTime]
    exact hq_ts
  have htagQ : (applyRun NewMemSeries qs).numSamples = 0 ∨
      ((applyRun NewMemSeries qs).periodType = q.periodType ∧
        (applyRun NewMemSeries qs).sampleType = q.sampleType) := by
    rcases hTags with h0 | ⟨ha, hb⟩
    · exact Or.inl h0
    · exact Or.inr ⟨by rw [ha, htagq.1], by rw [hb, htagq.2]⟩
  obtain ⟨hok, _, _, _, _⟩ := append_run_step (applyRun NewMemSeries qs) q hmaxlt htagQ
  have hstate : (Append (applyRun NewMemSeries qs) q).2 =
      applyAccepted (fixTags (applyRun NewMemSeries qs) q) q := (Append_ok_elim hok).1
  have hroll := step_roll_chunk (fixTags (applyRun NewMemSeries qs) q) q
    ((fixTags_one_chunk _ q).mpr hOne)
    (by rw [tsTailLen_fixTags, hTail0])
    hfn hcn
  rw [← hstate] at hroll
  have hlast : applyRun NewMemSeries (qs ++ [q]) = (Append (applyRun NewMemSeries qs) q).2 := by
    rw [applyRun_append, applyRun_cons, applyRun_nil]
  obtain ⟨c1, c2, c3, c4, c5, c6, c7, c8, c9, c10⟩ := hroll
  refine ⟨?_, hOne, hTail0, ?_, ?_, ?_, ?_, ?_, ?_, ?_, ?_, ?_, ?_⟩
  · rw [allAccepted_append, hAcc, allAccepted, hok]
    simp [allAccepted]
  · rw [hlast]; exact c1
  · rw [hlast]; exact c2
  · rw [hlast]; exact c3
  · rw [hlast]; exact c4
  · rw [hlast]; exact c5
  · rw [hlast]; exact c6
  · rw [hlast]; exact c7
  · rw [hlast]; exact c8
  · rw [hlast]; exact c9
  · rw [hlast]; exact c10

end Parca

namespace Parca

set_option maxRecDepth 100000 in
/-- Witness for the amended C1: a concrete 120-sample run followed by a 121st
sample that introduces flat-value key 4. -/
theorem roll_at_sample_121_witness :
    allAccepted NewMemSeries (mkRun 0 120 ++ [withFlat (mkProf 121) [(4, 11)]]) = true ∧
    (applyRun NewMemSeries (mkRun 0 120 ++ [withFlat (mkProf 121) [(4, 11)]])).timestamps.length
      = 2 ∧
    tsTailLen (applyRun NewMemSeries (mkRun 0 120 ++ [withFlat (mkProf 121) [(4, 11)]])) = 1 := by
  have h := roll_at_sample_121 ⟨"", ""⟩ ⟨"", ""⟩ (mkRun 0 120) (withFlat (mkProf 121) [(4, 11)])
    (mkRun_length 0 120) (by decide) (by decide) (by decide) (by decide)
  exact ⟨h.1, h.2.2.2.1, h.2.2.2.2.2.2.2.2.1⟩

end Parca
